import Mathlib

/-!
Verification of the render/cache/invalidation core of the freemap-outdoor-map
tile server, as a shallow embedding of the Rust sources:

* `src/app/tile_coord.rs` — tile coordinate algebra and the quadkey codec;
* `src/app/tile_processor.rs` — the tile processor (save, invalidation,
  invalidation register, index files, cache files);
* `src/app/tile_processing_worker.rs` — the tile-processing worker actor;
* `src/app/tile_invalidation.rs` — the expiration-file watcher's stable read;
* `src/app/server/tile_route.rs` — tile request parsing and validation.

Modelling conventions:

* Machine integers (`u8`, `u32`, `u64`, `usize`) are modelled as `Nat`;
  where wrap-around of the Rust operation is observable it is written
  explicitly with `% 2 ^ 32`.  `SystemTime` and `Duration` are modelled as
  `Nat` (nanoseconds since the epoch; only ordering and subtraction matter).
* `f64` scales are modelled by `F64Val`: exact rationals for numeric
  literals, plus explicit `inf`/`-inf`/`NaN`.  The formatting and parsing
  helpers below model the Rust `Display`/`FromStr` behaviour (full
  `from_str` grammar; a literal's value is kept exact rather than rounded
  to the nearest `f64`); `f64::EPSILON` is `2 ^ (-52)`.
* The filesystem is modelled at the level the tile processor observes it:
  a cache file is a path `{root}/{zoom}/{x}/{name}` with its byte content,
  an index file is identified by the tile coordinate `{zoom}/{x}/{y}.index`
  it belongs to and stores its list of text lines (Rust `str::lines` of the
  file content; the lines never contain a newline, so the list of lines
  determines the observable content).
* Rust `String` values are Lean `String`s; the character-level helpers
  below operate on `String.data` so that everything evaluates by `decide`.
-/

/-! ## Character-level string helpers (models of Rust `str` operations) -/

/-- Digit test for ASCII characters, as used by Rust integer parsing. -/
def isDigitChar (c : Char) : Bool :=
  48 ≤ c.toNat && c.toNat ≤ 57

/-- Numeric value accumulated from a list of ASCII digit characters. -/
def digitsVal (l : List Char) : Nat :=
  l.foldl (fun acc c => acc * 10 + (c.toNat - 48)) 0

/-- Model of Rust `str::parse::<uN>`: an optional leading `+` (which
Rust's unsigned `FromStr` accepts) followed by at least one digit; fails
on the empty string and on any non-digit character. -/
def parseNatChars (l : List Char) : Option Nat :=
  let digits := match l with
    | '+' :: r => r
    | r => r
  if digits.isEmpty then none
  else if digits.all isDigitChar then some (digitsVal digits) else none

/-- Model of `str::parse::<u8>`: digits, value below `2 ^ 8`. -/
def parseU8 (s : String) : Option Nat :=
  match parseNatChars s.data with
  | some n => if n < 2 ^ 8 then some n else none
  | none => none

/-- Model of `str::parse::<u32>`: digits, value below `2 ^ 32`. -/
def parseU32 (s : String) : Option Nat :=
  match parseNatChars s.data with
  | some n => if n < 2 ^ 32 then some n else none
  | none => none

/-- Split a character list at the first occurrence of `sep`, returning the
parts before and after it; `none` when `sep` does not occur. -/
def splitOnceChars (sep : Char) : List Char → Option (List Char × List Char)
  | [] => none
  | c :: rest =>
      if c = sep then some ([], rest)
      else
        match splitOnceChars sep rest with
        | some (l, r) => some (c :: l, r)
        | none => none

/-- Model of Rust `str::split_once(sep)`. -/
def splitOnceStr (s : String) (sep : Char) : Option (String × String) :=
  match splitOnceChars sep s.data with
  | some (l, r) => some (⟨l⟩, ⟨r⟩)
  | none => none

/-- Split a character list at every occurrence of `sep` (model of
Rust `str::split(sep)`, which always yields at least one part). -/
def splitAllChars (sep : Char) : List Char → List (List Char)
  | [] => [[]]
  | c :: rest =>
      if c = sep then [] :: splitAllChars sep rest
      else
        match splitAllChars sep rest with
        | [] => [[c]]
        | part :: parts => (c :: part) :: parts

/-- Whether `p` is an initial segment of `l`. -/
def listStartsWith [DecidableEq α] : List α → List α → Bool
  | _, [] => true
  | [], _ :: _ => false
  | a :: l, b :: p => if a = b then listStartsWith l p else false

/-- Model of Rust `str::starts_with(pat)`. -/
def strStartsWith (s pat : String) : Bool :=
  listStartsWith s.data pat.data

/-- Model of Rust `str::ends_with(pat)`. -/
def strEndsWith (s pat : String) : Bool :=
  listStartsWith s.data.reverse pat.data.reverse

/-! ## Tile coordinates (`src/app/tile_coord.rs`) -/

/-- The `TileCoord` value type: `zoom: u8`, `x: u32`, `y: u32`. -/
structure TileCoord where
  zoom : Nat
  x : Nat
  y : Nat
deriving DecidableEq, Repr

/-- `TileCoord::parent`: `None` at zoom 0, else `(zoom-1, x/2, y/2)`. -/
def TileCoord.parent (c : TileCoord) : Option TileCoord :=
  if c.zoom = 0 then none
  else some ⟨c.zoom - 1, c.x / 2, c.y / 2⟩

/-- Modelled from the spec: `TileCoord::ancestor_at_zoom` is used by
`tile_processor.rs` but its definition is not among the sources; §4.1 of the
spec defines it as `none` when `z' ≥ z`, else `(z', x >> (z-z'), y >> (z-z'))`. -/
def ancestorAtZoom (c : TileCoord) (z : Nat) : Option TileCoord :=
  if z ≥ c.zoom then none
  else some ⟨z, c.x >>> (c.zoom - z), c.y >>> (c.zoom - z)⟩

/-- Modelled from the spec: `TileCoord::is_ancestor_of` is used by
`tile_processor.rs` but its definition is not among the sources; §4.1 of the
spec defines it as `z ≤ other.z ∧ other.x >> Δ == x ∧ other.y >> Δ == y`
with `Δ = other.z − z` (so every coordinate is an ancestor of itself). -/
def isAncestorOf (a b : TileCoord) : Bool :=
  a.zoom ≤ b.zoom && b.x >>> (b.zoom - a.zoom) = a.x && b.y >>> (b.zoom - a.zoom) = a.y

/-- Release-build semantics of a `u32` shift-left: the shift amount is
taken mod 32 and the result is truncated to 32 bits. -/
def shlU32 (a n : Nat) : Nat :=
  (a <<< (n % 32)) % 2 ^ 32

/-- Model of `impl From<TileCoord> for Vec<u8>` (the quadkey encoder).
The Rust function `assert!`s `z ≤ 32` and `z == 0 || x < (1u32 << z)`
(likewise for `y`); a failing assertion (panic) is modelled as `none`.
Each emitted byte is `((y >> bit) & 1) << 1 | ((x >> bit) & 1)` with
`bit = z - 1 - level`. -/
def quadkeyEncode (t : TileCoord) : Option (List Nat) :=
  if t.zoom ≤ 32 then
    if (t.zoom = 0 ∨ t.x < shlU32 1 t.zoom) ∧ (t.zoom = 0 ∨ t.y < shlU32 1 t.zoom) then
      some ((List.range t.zoom).map (fun level =>
        let bit := t.zoom - 1 - level
        (((t.y >>> bit) % 2) <<< 1) ||| ((t.x >>> bit) % 2)))
    else none
  else none

/-- Model of `impl From<&[u8]> for TileCoord` (the quadkey decoder).
The Rust function `assert!`s `len ≤ 32` and each byte `≤ 3` (panic is
modelled as `none`), then folds `x = (x << 1) | (d & 1)` and
`y = (y << 1) | ((d >> 1) & 1)` over the bytes (u32 arithmetic). -/
def quadkeyDecode (value : List Nat) : Option TileCoord :=
  if value.length ≤ 32 then
    if value.all (fun d => d ≤ 3) then
      let xy := value.foldl
        (fun p d => (((p.1 <<< 1) ||| (d % 2)) % 2 ^ 32,
                     ((p.2 <<< 1) ||| ((d >>> 1) % 2)) % 2 ^ 32))
        (0, 0)
      some ⟨value.length, xy.1, xy.2⟩
    else none
  else none

/-- Model of `impl FromStr for TileCoord`: split on `/`, parse `u8`, `u32`,
`u32`, and reject extra segments. -/
def parseTileCoord (s : String) : Option TileCoord :=
  match splitAllChars '/' s.data with
  | [zs, xs, ys] => do
      let z ← parseU8 ⟨zs⟩
      let x ← parseU32 ⟨xs⟩
      let y ← parseU32 ⟨ys⟩
      pure ⟨z, x, y⟩
  | _ => none

/-! ## Scales -/

/-- A parsed `f64` value: the numeric literals are kept as exact
rationals; the non-finite values `inf`/`-inf`/`NaN`, which `f64::from_str`
also accepts, are explicit constructors. -/
inductive F64Val where
  | finite (q : ℚ)
  | infinite (neg : Bool)
  | nan
deriving DecidableEq, Repr

/-- ASCII lower-casing, for the case-insensitive `inf`/`infinity`/`nan`
keywords of `f64::from_str`. -/
def lowerChar (c : Char) : Char :=
  if 65 ≤ c.toNat ∧ c.toNat ≤ 90 then Char.ofNat (c.toNat + 32) else c

/-- Split a character list at the first `e` or `E` (the exponent marker
of a float literal); `none` when there is none. -/
def splitOnceExp : List Char → Option (List Char × List Char)
  | [] => none
  | c :: rest =>
      if c = 'e' ∨ c = 'E' then some ([], rest)
      else
        match splitOnceExp rest with
        | some (l, r) => some (c :: l, r)
        | none => none

/-- The mantissa grammar of `f64::from_str`:
`Count '.'? Count? | '.' Count` — digits with an optional point, at least
one digit in total.  Returns the digits as a numerator together with the
number of fractional digits. -/
def parseMantissa (l : List Char) : Option (Nat × Nat) :=
  match splitOnceChars '.' l with
  | some (intPart, fracPart) =>
      if intPart.all isDigitChar ∧ fracPart.all isDigitChar ∧
          ¬ (intPart.isEmpty ∧ fracPart.isEmpty) then
        some (digitsVal intPart * 10 ^ fracPart.length + digitsVal fracPart,
          fracPart.length)
      else none
  | none =>
      if ¬ l.isEmpty ∧ l.all isDigitChar then some (digitsVal l, 0) else none

/-- The exponent grammar of `f64::from_str`: `('e'|'E') Sign? Count`
(the marker is already stripped). -/
def parseExpPart (l : List Char) : Option Int :=
  let (isNeg, digits) :=
    match l with
    | '+' :: r => (false, r)
    | '-' :: r => (true, r)
    | r => (false, r)
  if ¬ digits.isEmpty ∧ digits.all isDigitChar then
    some (if isNeg then -(digitsVal digits : Int) else (digitsVal digits : Int))
  else none

/-- The exact rational value of the decimal literal
`numerator * 10 ^ (exp - fracLen)`, assembled as one `mkRat` so that the
definition evaluates inside the kernel. -/
def decimalValue (num fracLen : Nat) (e : Int) : ℚ :=
  let net : Int := e - fracLen
  if 0 ≤ net then ((num * 10 ^ net.toNat : Nat) : ℚ)
  else mkRat num (10 ^ (-net).toNat)

/-- Model of `str::parse::<f64>` following the documented grammar
`Sign? ('inf' | 'infinity' | 'nan' | Number)` with
`Number ::= (Count '.'? Count? | '.' Count) Exp?`, keywords
case-insensitive.  Numeric literals are kept as exact rationals (the
rounding of a decimal literal to the nearest `f64`, and the overflow of
extreme exponents to infinity, are not modelled; the scales in use are
short decimals that `f64` represents exactly). -/
def parseF64Chars (l : List Char) : Option F64Val :=
  let (isNeg, rest) :=
    match l with
    | '+' :: r => (false, r)
    | '-' :: r => (true, r)
    | r => (false, r)
  let lower := rest.map lowerChar
  if lower = ['i', 'n', 'f'] ∨ lower = ['i', 'n', 'f', 'i', 'n', 'i', 't', 'y'] then
    some (.infinite isNeg)
  else if lower = ['n', 'a', 'n'] then
    some .nan
  else
    match splitOnceExp rest with
    | some (mant, expPart) =>
        match parseMantissa mant, parseExpPart expPart with
        | some (num, fracLen), some e =>
            some (.finite (if isNeg then -(decimalValue num fracLen e)
                           else decimalValue num fracLen e))
        | _, _ => none
    | none =>
        match parseMantissa rest with
        | some (num, fracLen) =>
            some (.finite (if isNeg then -(decimalValue num fracLen 0)
                           else decimalValue num fracLen 0))
        | none => none

/-- Model of `str::parse::<f64>` for scale strings. -/
def parseScale (s : String) : Option F64Val :=
  parseF64Chars s.data

/-- Model of the `Display` formatting of an `f64` scale (as used in
`format!("{scale}")`): an integral value prints without a fractional
part, infinities print `inf`/`-inf` and `NaN` prints `NaN`; other
rationals use the `ℚ` representation (injective, and never used for the
integral scales that occur in practice). -/
def formatScale (v : F64Val) : String :=
  match v with
  | .finite q => if q.den = 1 then toString q.num else toString q
  | .infinite isNeg => if isNeg then "-inf" else "inf"
  | .nan => "NaN"

/-- Machine epsilon of `f64`, used for scale comparison in the tile route. -/
def f64Epsilon : ℚ := 1 / 2 ^ 52

/-- The scale test `(allowed - scale).abs() < f64::EPSILON` of
`serve_tile`, on a parsed scale: every `f64` comparison with `NaN` is
false, and `|allowed - ±inf| = +inf` is never below epsilon, so only
finite scales can pass. -/
def scaleWithinEpsilon (allowed : ℚ) (scale : F64Val) : Bool :=
  match scale with
  | .finite q => |allowed - q| < f64Epsilon
  | .infinite _ => false
  | .nan => false

/-! ## Tile processor state (`src/app/tile_processor.rs`) -/

/-- The configuration of the tile processor (`TileProcessingConfig`); the
cache root path is a fixed prefix of every path and is left implicit. -/
structure TileProcessingConfig where
  indexZoom : Nat
  maxZoom : Nat
  invalidateMinZoom : Nat
deriving DecidableEq, Repr

/-- A cache file path `{root}/{zoom}/{x}/{name}` (the name is the final
component, e.g. `"2048@1.jpeg"` or `"7.index"` — index files are kept in a
separate map keyed by their tile coordinate). -/
structure CacheFile where
  zoom : Nat
  x : Nat
  name : String
deriving DecidableEq, Repr

/-- The filesystem as the tile processor observes it: cache files with
their contents, and index files (keyed by the index-tile coordinate whose
path they live at) with their list of text lines. -/
structure FsState where
  cacheFiles : List (CacheFile × List Nat)
  indexFiles : List (TileCoord × List String)
deriving DecidableEq, Repr

/-- The mutable state of `TileProcessor`: the invalidation register
(`HashMap<TileCoord, SystemTime>`, modelled as an association list) and
the filesystem. `last_prune` lives on the worker and is not needed here. -/
structure ProcState where
  register : List (TileCoord × Nat)
  fs : FsState
deriving DecidableEq, Repr

/-- First value bound to `key` in an association list (Rust `HashMap::get`). -/
def lookupBy [DecidableEq α] (l : List (α × β)) (key : α) : Option β :=
  match l with
  | [] => none
  | e :: rest => if e.1 = key then some e.2 else lookupBy rest key

/-- The file name `{y}@{scale}.jpeg` used by `tile_cache_path`. -/
def tileCacheName (y : Nat) (scale : F64Val) : String :=
  toString y ++ "@" ++ formatScale scale ++ ".jpeg"

/-- Model of `tile_cache_path(base, coord, scale)`:
the path `{base}/{zoom}/{x}/{y}@{scale}.jpeg`. -/
def tileCacheFile (coord : TileCoord) (scale : F64Val) : CacheFile :=
  ⟨coord.zoom, coord.x, tileCacheName coord.y scale⟩

/-- Model of `fs::write` of a cache file (create or truncate-and-replace). -/
def writeCacheFile (fs : FsState) (f : CacheFile) (data : List Nat) : FsState :=
  { fs with cacheFiles := fs.cacheFiles.filter (fun e => e.1 ≠ f) ++ [(f, data)] }

/-- Model of `fs::remove_file` of a cache file (not-found is ignored). -/
def removeCacheFile (cf : List (CacheFile × List Nat)) (f : CacheFile) :
    List (CacheFile × List Nat) :=
  cf.filter (fun e => e.1 ≠ f)

/-- The index entry line `{zoom}/{x}/{y}@{scale}` written by
`append_index_entry`. -/
def indexEntryLine (coord : TileCoord) (scale : F64Val) : String :=
  toString coord.zoom ++ "/" ++ toString coord.x ++ "/" ++ toString coord.y
    ++ "@" ++ formatScale scale

/-- Model of `parse_index_entry`: split at the first `@`, parse the scale
as `f64` and the tile part with `TileCoord::from_str`. -/
def parseIndexEntry (entry : String) : Option (TileCoord × F64Val) :=
  match splitOnceStr entry '@' with
  | none => none
  | some (tilePart, scalePart) =>
      match parseScale scalePart with
      | none => none
      | some scale =>
          match parseTileCoord tilePart with
          | none => none
          | some coord => some (coord, scale)

/-- Open-append of one line to an index file: appends to the existing file
or creates it (`OpenOptions::new().create(true).append(true)`). -/
def appendIndexLine (fs : FsState) (ic : TileCoord) (line : String) : FsState :=
  match lookupBy fs.indexFiles ic with
  | some ls =>
      { fs with indexFiles := fs.indexFiles.map (fun e => if e.1 = ic then (ic, ls ++ [line]) else e) }
  | none => { fs with indexFiles := fs.indexFiles ++ [(ic, [line])] }

/-- Model of `TileProcessor::append_index_entry`: tiles at or below the
index zoom are not indexed; otherwise the line is appended to the index
file of the coordinate's ancestor at the index zoom. -/
def append_index_entry (cfg : TileProcessingConfig) (fs : FsState)
    (coord : TileCoord) (scale : F64Val) : FsState :=
  if coord.zoom ≤ cfg.indexZoom then fs
  else
    match ancestorAtZoom coord cfg.indexZoom with
    | some ic => appendIndexLine fs ic (indexEntryLine coord scale)
    | none => fs

/-- One step of the register walk in `should_drop_save`: the loop body
checks the register at the current coordinate and drops the save when
`render_started_at >= *invalidated_at`, then moves to the parent.  The
fuel argument is `coord.zoom + 1`, which the walk never exhausts since
`parent` decreases the zoom. -/
def shouldDropSaveGo (reg : List (TileCoord × Nat)) (renderStartedAt : Nat) :
    Nat → TileCoord → Bool
  | 0, _ => false
  | fuel + 1, c =>
      let hit : Bool := match lookupBy reg c with
        | some invalidatedAt => renderStartedAt ≥ invalidatedAt
        | none => false
      if hit then true
      else
        match c.parent with
        | some p => shouldDropSaveGo reg renderStartedAt fuel p
        | none => false

/-- Model of `TileProcessor::should_drop_save`. -/
def shouldDropSave (reg : List (TileCoord × Nat)) (coord : TileCoord)
    (renderStartedAt : Nat) : Bool :=
  shouldDropSaveGo reg renderStartedAt (coord.zoom + 1) coord

/-- Model of `TileProcessor::handle_save_tile`: drop when
`should_drop_save`, else append the index entry and write the cache file. -/
def handle_save_tile (cfg : TileProcessingConfig) (s : ProcState) (data : List Nat)
    (coord : TileCoord) (scale : F64Val) (renderStartedAt : Nat) : ProcState :=
  if shouldDropSave s.register coord renderStartedAt then s
  else
    let fs1 := append_index_entry cfg s.fs coord scale
    { s with fs := writeCacheFile fs1 (tileCacheFile coord scale) data }

/-- Model of `TileProcessor::record_invalidation`:
`entry(coord).or_insert(t)` then raise to `t` when the stored time is
smaller (insertion order of the `HashMap` is immaterial; the new entry is
put at the front of the association list). -/
def recordInvalidation (reg : List (TileCoord × Nat)) (coord : TileCoord)
    (t : Nat) : List (TileCoord × Nat) :=
  match lookupBy reg coord with
  | none => (coord, t) :: reg
  | some existing =>
      reg.map (fun e => if e.1 = coord then (coord, if existing < t then t else existing) else e)

/-- Model of `TileProcessor::prune_invalidation_register`: retain entries
with `now.duration_since(ts).unwrap_or(ZERO) <= ttl` (a timestamp in the
future of `now` makes `duration_since` fail, so the entry is retained). -/
def prune_invalidation_register (reg : List (TileCoord × Nat)) (now ttl : Nat) :
    List (TileCoord × Nat) :=
  reg.filter (fun e => (if e.2 ≤ now then now - e.2 else 0) ≤ ttl)

/-- Whether an index line is removed by `process_index_tile` for `target`:
it parses and the parsed coordinate is in `target`'s subtree. -/
def entryIsStale (target : TileCoord) (line : String) : Bool :=
  match parseIndexEntry line with
  | some (c, _) => isAncestorOf target c
  | none => false

/-- The cache file deleted for a stale index line, when it is stale. -/
def staleEntryFile (target : TileCoord) (line : String) : Option CacheFile :=
  match parseIndexEntry line with
  | some (c, scale) => if isAncestorOf target c then some (tileCacheFile c scale) else none
  | none => none

/-- Model of `TileProcessor::process_index_tile`.  The source loops once
over the lines of the file at `ic`, removing the cache file of every line
in `target`'s subtree and retaining the others (parse failures are
retained); when anything was removed the file is truncated and rewritten
with the retained lines.  The loop is expressed as one pass per result
(`filter` / `any` / `filterMap` over the same snapshot of the lines). -/
def process_index_tile (cfg : TileProcessingConfig) (s : ProcState)
    (ic target : TileCoord) : ProcState :=
  match lookupBy s.fs.indexFiles ic with
  | none => s
  | some lines =>
      let retained := lines.filter (fun l => ¬ entryIsStale target l)
      let removedAny := lines.any (fun l => entryIsStale target l)
      let deletions := lines.filterMap (fun l => staleEntryFile target l)
      let s1 := { s with fs :=
        { s.fs with cacheFiles := deletions.foldl removeCacheFile s.fs.cacheFiles } }
      if removedAny then
        { s1 with fs := { s1.fs with
            indexFiles := s1.fs.indexFiles.map (fun e => if e.1 = ic then (ic, retained) else e) } }
      else s1

/-- The index-tile coordinates visited by `delete_indexed_tiles`: the
single ancestor at the index zoom when the invalidated tile is deeper,
else the `factor × factor` square of index tiles covering its subtree
(`factor = 1 << (index_zoom - zoom)`, outer loop on x, inner on y). -/
def ditCoords (cfg : TileProcessingConfig) (coord : TileCoord) : List TileCoord :=
  match ancestorAtZoom coord cfg.indexZoom with
  | some ac => [ac]
  | none =>
      let factor := 2 ^ (cfg.indexZoom - coord.zoom)
      (List.range factor).flatMap (fun i =>
        (List.range factor).map (fun j =>
          ⟨cfg.indexZoom, coord.x * factor + i, coord.y * factor + j⟩))

/-- Model of `TileProcessor::delete_indexed_tiles`: run
`process_index_tile` over every visited index tile, in loop order. -/
def delete_indexed_tiles (cfg : TileProcessingConfig) (s : ProcState)
    (coord : TileCoord) : ProcState :=
  (ditCoords cfg coord).foldl (fun s ic => process_index_tile cfg s ic coord) s

/-- The file-selection predicate of `delete_tile_files`: a file in the
directory `{root}/{zoom}/{x}` whose name starts with `{y}@` and ends with
`.jpeg`. -/
def matchesTileFiles (coord : TileCoord) (f : CacheFile) : Prop :=
  f.zoom = coord.zoom ∧ f.x = coord.x ∧
  strStartsWith f.name (toString coord.y ++ "@") = true ∧
  strEndsWith f.name ".jpeg" = true

instance (coord : TileCoord) (f : CacheFile) : Decidable (matchesTileFiles coord f) := by
  unfold matchesTileFiles
  infer_instance

/-- Model of `TileProcessor::delete_tile_files`: list the directory
`{root}/{zoom}/{x}` and remove every file whose name starts with `{y}@`
and ends with `.jpeg`. -/
def delete_tile_files (cfg : TileProcessingConfig) (s : ProcState)
    (coord : TileCoord) : ProcState :=
  { s with fs := { s.fs with cacheFiles := s.fs.cacheFiles.filter (fun e =>
      ¬ matchesTileFiles coord e.1) } }

/-- The ancestor walk of `delete_parent_tiles`: while the current zoom is
above `invalidate_min_zoom`, step to the parent and delete its files
unless its zoom is above `index_zoom`.  The fuel argument is the starting
zoom, which bounds the number of parent steps. -/
def deleteParentGo (cfg : TileProcessingConfig) : Nat → ProcState → TileCoord → ProcState
  | 0, s, _ => s
  | fuel + 1, s, c =>
      if c.zoom > cfg.invalidateMinZoom then
        match c.parent with
        | none => s
        | some p =>
            let s1 := if p.zoom > cfg.indexZoom then s else delete_tile_files cfg s p
            deleteParentGo cfg fuel s1 p
      else s

/-- Model of `TileProcessor::delete_parent_tiles`, including the early
return when `invalidate_min_zoom > index_zoom`. -/
def delete_parent_tiles (cfg : TileProcessingConfig) (s : ProcState)
    (coord : TileCoord) : ProcState :=
  if cfg.invalidateMinZoom > cfg.indexZoom then s
  else deleteParentGo cfg coord.zoom s coord

/-- Model of `TileProcessor::handle_invalidation`: record the invalidation
in the register, and when the zoom is within `max_zoom` delete the indexed
subtree and the parent tiles. -/
def handle_invalidation (cfg : TileProcessingConfig) (s : ProcState)
    (coord : TileCoord) (invalidatedAt : Nat) : ProcState :=
  let s1 := { s with register := recordInvalidation s.register coord invalidatedAt }
  if coord.zoom ≤ cfg.maxZoom then
    delete_parent_tiles cfg (delete_indexed_tiles cfg s1 coord) coord
  else s1

/-! ## Tile-processing worker (`src/app/tile_processing_worker.rs`) -/

/-- The message enum `TileProcessingMessage`. -/
inductive TPMessage where
  | saveTile (data : List Nat) (coord : TileCoord) (scale : F64Val) (renderStartedAt : Nat)
  | invalidate (coord : TileCoord) (invalidatedAt : Nat)
deriving DecidableEq, Repr

/-- The send error enum `TileProcessingSendError`. -/
inductive TileProcessingSendError where
  | queueClosed
deriving DecidableEq, Repr

/-- The submit-side state of `TileProcessingWorker`: whether `inner.tx`
still holds the sender (`shutdown` takes and drops it), and the queued
messages.  The receiving thread is joined only by `shutdown`, so on the
submit side a live sender implies a live channel. -/
structure WorkerState where
  txOpen : Bool
  queue : List TPMessage
deriving DecidableEq, Repr

/-- Model of `TileProcessingWorker::shutdown`: take and drop the sender
(then join the worker thread). -/
def workerShutdown (w : WorkerState) : WorkerState :=
  { w with txOpen := false }

/-- Model of `TileProcessingWorker::save_tile`: `QueueClosed` when the
sender is gone, else enqueue the `SaveTile` message. -/
def worker_save_tile (w : WorkerState) (data : List Nat) (coord : TileCoord)
    (scale : F64Val) (renderStartedAt : Nat) :
    WorkerState × Option TileProcessingSendError :=
  if w.txOpen then
    ({ w with queue := w.queue ++ [.saveTile data coord scale renderStartedAt] }, none)
  else (w, some .queueClosed)

/-- Model of `TileProcessingWorker::invalidate_blocking`: `QueueClosed`
when the sender is gone, else enqueue the `Invalidate` message. -/
def worker_invalidate_blocking (w : WorkerState) (coord : TileCoord)
    (invalidatedAt : Nat) : WorkerState × Option TileProcessingSendError :=
  if w.txOpen then
    ({ w with queue := w.queue ++ [.invalidate coord invalidatedAt] }, none)
  else (w, some .queueClosed)

/-- The operations a client can perform on the worker handle. -/
inductive WorkerOp where
  | save (data : List Nat) (coord : TileCoord) (scale : F64Val) (renderStartedAt : Nat)
  | inval (coord : TileCoord) (invalidatedAt : Nat)
  | shut
deriving Repr

/-- State after one client operation. -/
def applyWorkerOp (w : WorkerState) : WorkerOp → WorkerState
  | .save data coord scale t => (worker_save_tile w data coord scale t).1
  | .inval coord t => (worker_invalidate_blocking w coord t).1
  | .shut => workerShutdown w

/-- State after a sequence of client operations. -/
def applyWorkerOps (w : WorkerState) (ops : List WorkerOp) : WorkerState :=
  ops.foldl applyWorkerOp w

/-! ## Expiration-file stable read (`src/app/tile_invalidation.rs`) -/

/-- What one attempt of the `read_with_retry` loop observes of the file:
the `fs::metadata` size before the read, the `fs::read_to_string` result,
and the `fs::metadata` size after the read (each `none` on an I/O error). -/
structure ReadAttempt where
  sizeBefore : Option Nat
  readResult : Option String
  sizeAfter : Option Nat
deriving Repr

/-- Whether a string ends in a newline (Rust `str::ends_with('\n')`). -/
def endsWithNewline (s : String) : Bool :=
  match s.data.getLast? with
  | some c => c = '\n'
  | none => false

/-- The accept decision of one loop iteration of `read_with_retry`: needs
both stats and the read to succeed, the size to be unchanged (a failed
re-stat falls back to the size observed before: `unwrap_or(size_before)`),
and the content to be empty or newline-terminated. -/
def attemptResult (a : ReadAttempt) : Option String :=
  match a.sizeBefore with
  | none => none
  | some sizeBefore =>
      match a.readResult with
      | none => none
      | some value =>
          let sizeAfter := a.sizeAfter.getD sizeBefore
          let stable := sizeBefore = sizeAfter
          let complete := value = "" ∨ endsWithNewline value = true
          if stable ∧ complete then some value else none

/-- The retry loop of `read_with_retry` over the observations of the
successive attempts; the second component counts the 50 ms sleeps (one
after every failed attempt). -/
def readWithRetryGo : List ReadAttempt → Except Unit String × Nat
  | [] => (.error (), 0)
  | a :: rest =>
      match attemptResult a with
      | some v => (.ok v, 0)
      | none =>
          let r := readWithRetryGo rest
          (r.1, r.2 + 1)

/-- Model of `read_with_retry`: `for _ in 0..5` makes at most five
attempts; when all fail the last error is returned. -/
def read_with_retry (attempts : List ReadAttempt) : Except Unit String × Nat :=
  readWithRetryGo (attempts.take 5)

/-! ## Tile route (`src/app/server/tile_route.rs`) -/

/-- The parts of `AppState` that the validation logic of `serve_tile`
reads.  The coverage geometry, cache base path and tile worker only
matter through their presence. -/
structure AppStateM where
  maxZoom : Nat
  allowedScales : List ℚ
  hasCoverage : Bool
  hasCacheBase : Bool
  serveCached : Bool
deriving Repr

/-- Outcomes of the parts of `serve_tile` that live outside this core:
whether the coverage test returns `Outside`, what a cache read returns
(`none` covers both not-found and other read errors, which fall through
to rendering), and the render result. -/
structure ServeEnv where
  coverageOutside : Bool
  cacheRead : Option (List Nat)
  renderResult : Except Unit (List Nat)
deriving Repr

/-- The HTTP responses `serve_tile` can produce. -/
inductive TileResponse where
  | badRequest
  | notFound
  | okGray
  | okCached (data : List Nat)
  | okRendered (data : List Nat)
  | internalError
deriving DecidableEq, Repr

/-- Model of `serve_tile`: 404 when the zoom exceeds `max_zoom` or the
scale is not within `f64::EPSILON` of an allowed scale; 400 when the
extension (defaulted to `jpeg`) is neither `jpg` nor `jpeg`; then the
coverage short-circuit, the cache read (only with a cache base path and
`serve_cached`), and the render. -/
def serve_tile (st : AppStateM) (coord : TileCoord) (scale : F64Val)
    (ext : Option String) (env : ServeEnv) : TileResponse :=
  if coord.zoom > st.maxZoom then .notFound
  else if ¬ st.allowedScales.any (fun allowed => scaleWithinEpsilon allowed scale) then .notFound
  else
    let extension := ext.getD "jpeg"
    if extension ≠ "jpg" ∧ extension ≠ "jpeg" then .badRequest
    else if st.hasCoverage ∧ env.coverageOutside then .okGray
    else
      match (if st.hasCacheBase ∧ st.serveCached then env.cacheRead else none) with
      | some data => .okCached data
      | none =>
          match env.renderResult with
          | .error _ => .internalError
          | .ok data => .okRendered data

/-- Model of `parse_y_suffix` up to the final `y` parse: returns the
`y` part together with the scale (default `1.0`) and extension (default
`none`).  Mirrors the branch structure of the source: an `@` introduces
`scale` `x` and an optional `.ext`; otherwise a `.` introduces the
extension; an empty extension is malformed. -/
def parseSuffixParts (input : String) : Option (String × F64Val × Option String) :=
  match splitOnceStr input '@' with
  | some (left, right) =>
      match splitOnceStr right 'x' with
      | none => none
      | some (scaleStr, rest) =>
          match parseScale scaleStr with
          | none => none
          | some scale =>
              if strStartsWith rest "." then
                let afterDot := rest.drop 1
                if afterDot = "" then none
                else some (left, scale, some afterDot)
              else if rest = "" then some (left, scale, none)
              else none
  | none =>
      match splitOnceStr input '.' with
      | some (left, right) =>
          if right = "" then none else some (left, F64Val.finite 1, some right)
      | none => some (input, F64Val.finite 1, none)

/-- Model of `parse_y_suffix`. -/
def parse_y_suffix (input : String) : Option (Nat × F64Val × Option String) :=
  match parseSuffixParts input with
  | none => none
  | some (yPart, scale, ext) =>
      match parseU32 yPart with
      | none => none
      | some y => some (y, scale, ext)

/-- Model of the route handler `get`: a malformed `y` suffix is a 400,
otherwise the request is served by `serve_tile`. -/
def getRoute (st : AppStateM) (zoom x : Nat) (ySuffix : String)
    (env : ServeEnv) : TileResponse :=
  match parse_y_suffix ySuffix with
  | none => .badRequest
  | some (y, scale, ext) => serve_tile st ⟨zoom, x, y⟩ scale ext env

/-! ## Verification-layer predicates (not part of the source model) -/

/-- All lines of an index file are outside `target`'s subtree (none would
be removed by `process_index_tile` for `target`). -/
def cleanFor (target : TileCoord) (lines : List String) : Prop :=
  ∀ l ∈ lines, entryIsStale target l = false

/-- `process_index_tile` at `ic` for `target` would leave the state
unchanged: the index file is absent, or none of its lines is stale. -/
def pitNoop (s : ProcState) (ic target : TileCoord) : Prop :=
  match lookupBy s.fs.indexFiles ic with
  | none => True
  | some lines => cleanFor target lines

/-- An index line is canonical for the file `ic` it is stored in: if it
parses, the parsed tile is deeper than the index zoom and its ancestor at
the index zoom is `ic` — which is where `append_index_entry` puts it. -/
def entryCanonical (cfg : TileProcessingConfig) (ic : TileCoord) (line : String) : Bool :=
  match parseIndexEntry line with
  | some (c, _) => decide (cfg.indexZoom < c.zoom) && (ancestorAtZoom c cfg.indexZoom == some ic)
  | none => true

/-- Well-formedness of the index as the processor itself builds it: index
file paths are distinct (as on a real filesystem) and every line sits in
its canonical index file. -/
def WellIndexed (cfg : TileProcessingConfig) (fs : FsState) : Prop :=
  (fs.indexFiles.map Prod.fst).Nodup ∧
  ∀ e ∈ fs.indexFiles, ∀ l ∈ e.2, entryCanonical cfg e.1 l = true

instance (cfg : TileProcessingConfig) (fs : FsState) : Decidable (WellIndexed cfg fs) := by
  unfold WellIndexed
  infer_instance

/-! ## Supporting lemmas -/

/-- `lookupBy` on a list whose entries with key `c` are all rewritten to
value `v` (and others kept) returns `v` exactly when `c` was present. -/
theorem lookupBy_map_setKey {α β : Type} [DecidableEq α] (c : α) (v : β) :
    ∀ l : List (α × β), (lookupBy l c).isSome →
      lookupBy (l.map (fun e => if e.1 = c then (c, v) else e)) c = some v := by
  intro l
  induction l with
  | nil => simp [lookupBy]
  | cons e rest ih =>
      by_cases h : e.1 = c
      · simp [lookupBy, h]
      · simp only [List.map_cons, lookupBy, h, if_false, if_neg h]
        exact ih

/-- Unfolding lemma: `lookupBy` on an empty list. -/
theorem lookupBy_nil {α β : Type} [DecidableEq α] (c : α) :
    lookupBy ([] : List (α × β)) c = none := rfl

/-- Unfolding lemma: `lookupBy` on a cons. -/
theorem lookupBy_cons {α β : Type} [DecidableEq α] (e : α × β) (l : List (α × β)) (c : α) :
    lookupBy (e :: l) c = if e.1 = c then some e.2 else lookupBy l c := rfl

/-- `lookupBy` past an absent key finds a newly appended entry. -/
theorem lookupBy_append_single {α β : Type} [DecidableEq α] (c : α) (v : β) :
    ∀ l : List (α × β), lookupBy l c = none →
      lookupBy (l ++ [(c, v)]) c = some v := by
  intro l
  induction l with
  | nil => simp [lookupBy]
  | cons e rest ih =>
      intro h
      rw [lookupBy_cons] at h
      rw [List.cons_append, lookupBy_cons]
      by_cases he : e.1 = c
      · rw [if_pos he] at h
        exact absurd h (by simp)
      · rw [if_neg he] at h ⊢
        exact ih h

/-- `lookupBy` ignores rewrites of entries at other keys. -/
theorem lookupBy_map_setKey_other {α β : Type} [DecidableEq α] (c k : α) (v : β)
    (hne : k ≠ c) :
    ∀ l : List (α × β),
      lookupBy (l.map (fun e => if e.1 = c then (c, v) else e)) k = lookupBy l k := by
  intro l
  induction l with
  | nil => simp [lookupBy]
  | cons e rest ih =>
      rw [List.map_cons, lookupBy_cons, lookupBy_cons]
      by_cases h : e.1 = c
      · rw [if_pos h]
        have h1 : ((c, v) : α × β).1 = k ↔ False := by
          simp only [iff_false]
          exact fun hk => hne (Eq.symm hk)
        have h2 : e.1 = k ↔ False := by
          simp only [iff_false]
          exact fun hk => hne (by rw [← hk, h])
        rw [if_neg (h1.mp), if_neg (h2.mp)]
        exact ih
      · rw [if_neg h]
        by_cases hk : e.1 = k
        · rw [if_pos hk, if_pos hk]
        · rw [if_neg hk, if_neg hk]
          exact ih

/-- `lookupBy` ignores an appended entry at another key. -/
theorem lookupBy_append_single_other {α β : Type} [DecidableEq α] (c k : α) (v : β)
    (hne : k ≠ c) :
    ∀ l : List (α × β), lookupBy (l ++ [(c, v)]) k = lookupBy l k := by
  intro l
  induction l with
  | nil =>
      simp only [List.nil_append, lookupBy_nil, lookupBy_cons]
      rw [if_neg (fun hk : ((c, v) : α × β).1 = k => hne (Eq.symm hk))]
  | cons e rest ih =>
      rw [List.cons_append, lookupBy_cons, lookupBy_cons]
      by_cases hk : e.1 = k
      · rw [if_pos hk, if_pos hk]
      · rw [if_neg hk, if_neg hk]
        exact ih

/-- The register value after `record_invalidation` is the max of the old
value (when present) and the new timestamp. -/
theorem lookupBy_recordInvalidation (reg : List (TileCoord × Nat))
    (c : TileCoord) (t : Nat) :
    lookupBy (recordInvalidation reg c t) c
      = some (match lookupBy reg c with | none => t | some t0 => max t0 t) := by
  unfold recordInvalidation
  cases hl : lookupBy reg c with
  | none => simp [lookupBy]
  | some t0 =>
      have := lookupBy_map_setKey c (if t0 < t then t else t0) reg (by simp [hl])
      rw [this]
      simp only [Option.some.injEq, Nat.max_def]
      split_ifs <;> omega

/-- After any sequence of client operations following a state with a
dropped sender, the sender is still dropped: no operation re-creates it. -/
theorem txOpen_applyWorkerOps (ops : List WorkerOp) :
    ∀ w : WorkerState, w.txOpen = false → (applyWorkerOps w ops).txOpen = false := by
  induction ops with
  | nil => intro w h; simpa [applyWorkerOps] using h
  | cons op rest ih =>
      intro w h
      have hstep : (applyWorkerOp w op).txOpen = false := by
        cases op <;>
          simp [applyWorkerOp, worker_save_tile, worker_invalidate_blocking, workerShutdown, h]
      simpa [applyWorkerOps] using ih (applyWorkerOp w op) hstep

/-- C7 — Queue closed after shutdown: once `shutdown()` has been invoked
on a `TileProcessingWorker`, every subsequent `save_tile` and every
subsequent `invalidate_blocking` (after any further sequence of client
operations) returns the `QueueClosed` error. -/
theorem c7_queue_closed (w : WorkerState) (ops : List WorkerOp)
    (data : List Nat) (coord : TileCoord) (scale : F64Val) (renderStartedAt : Nat)
    (coord2 : TileCoord) (invalidatedAt : Nat) :
    (worker_save_tile (applyWorkerOps (workerShutdown w) ops) data coord scale
        renderStartedAt).2 = some .queueClosed ∧
    (worker_invalidate_blocking (applyWorkerOps (workerShutdown w) ops) coord2
        invalidatedAt).2 = some .queueClosed := by
  have h : (applyWorkerOps (workerShutdown w) ops).txOpen = false :=
    txOpen_applyWorkerOps ops _ rfl
  constructor <;> simp [worker_save_tile, worker_invalidate_blocking, h]

/-- C9 — Prune exactness: `prune_invalidation_register(now, ttl)` removes
exactly the entries with `now − ts > ttl` (as integers), and keeps every
other entry unchanged — in particular every entry whose timestamp lies in
the future of `now`. -/
theorem c9_prune_exact (reg : List (TileCoord × Nat)) (now ttl : Nat) :
    prune_invalidation_register reg now ttl
      = reg.filter (fun e => ¬ ((now : ℤ) - (e.2 : ℤ) > (ttl : ℤ))) ∧
    ∀ e ∈ reg, now < e.2 → e ∈ prune_invalidation_register reg now ttl := by
  have hpt : ∀ e : TileCoord × Nat,
      (decide ((if e.2 ≤ now then now - e.2 else 0) ≤ ttl))
        = decide (¬ ((now : ℤ) - (e.2 : ℤ) > (ttl : ℤ))) := by
    intro e
    simp only [decide_eq_decide]
    split_ifs <;> omega
  constructor
  · unfold prune_invalidation_register
    exact List.filter_congr (fun e _ => hpt e)
  · intro e he hf
    unfold prune_invalidation_register
    refine List.mem_filter.mpr ⟨he, ?_⟩
    simp only [decide_eq_true_eq]
    split_ifs <;> omega

/-- A successful `read_with_retry` attempt yields newline-terminated or
empty content, a before-stat that succeeded, and an after-size (defaulted
to the before-size on re-stat failure) equal to the before-size. -/
theorem attemptResult_some (a : ReadAttempt) (v : String)
    (h : attemptResult a = some v) :
    (v = "" ∨ endsWithNewline v = true) ∧
    ∃ sizeBefore, a.sizeBefore = some sizeBefore ∧
      a.sizeAfter.getD sizeBefore = sizeBefore ∧ a.readResult = some v := by
  unfold attemptResult at h
  cases hb : a.sizeBefore with
  | none => rw [hb] at h; exact absurd h (by simp)
  | some sb =>
      rw [hb] at h
      cases hr : a.readResult with
      | none => rw [hr] at h; exact absurd h (by simp)
      | some value =>
          rw [hr] at h
          dsimp only at h
          split_ifs at h with hc
          obtain rfl : value = v := by simpa using h
          exact ⟨hc.2, sb, rfl, hc.1.symm, rfl⟩

/-- The retry loop returns content only from an accepting attempt. -/
theorem readWithRetryGo_ok (l : List ReadAttempt) (v : String)
    (h : (readWithRetryGo l).1 = .ok v) :
    ∃ a ∈ l, attemptResult a = some v := by
  induction l with
  | nil => exact absurd h (by simp [readWithRetryGo])
  | cons a rest ih =>
      unfold readWithRetryGo at h
      cases ha : attemptResult a with
      | some w =>
          rw [ha] at h
          obtain rfl : w = v := by simpa using h
          exact ⟨a, by simp, ha⟩
      | none =>
          rw [ha] at h
          obtain ⟨b, hb, hbv⟩ := ih (by simpa using h)
          exact ⟨b, by simp [hb], hbv⟩

/-- When every attempt rejects, the retry loop errors out after sleeping
once per failed attempt. -/
theorem readWithRetryGo_error (l : List ReadAttempt)
    (h : ∀ a ∈ l, attemptResult a = none) :
    readWithRetryGo l = (.error (), l.length) := by
  induction l with
  | nil => rfl
  | cons a rest ih =>
      unfold readWithRetryGo
      rw [h a (by simp), ih (fun b hb => h b (by simp [hb]))]
      rfl

/-- C5 — Watcher stable read: `read_with_retry` returns content only when
some attempt observed an unchanged file size around a successful read and
the content was empty or newline-terminated (so a file whose final newline
has not been written yet is never processed); in every attempt the
observed before-size and the observed after-size (when the re-stat
succeeds) agree.  When all of the at most five attempts fail, it returns
an error, having slept 50 ms after each failed attempt. -/
theorem c5_stable_read (attempts : List ReadAttempt) :
    (∀ v, (read_with_retry attempts).1 = .ok v →
       (v = "" ∨ endsWithNewline v = true) ∧
       ∃ a ∈ attempts.take 5, attemptResult a = some v ∧
         ∃ sizeBefore, a.sizeBefore = some sizeBefore ∧
           a.sizeAfter.getD sizeBefore = sizeBefore ∧ a.readResult = some v) ∧
    ((∀ a ∈ attempts.take 5, attemptResult a = none) →
       read_with_retry attempts = (.error (), (attempts.take 5).length)) := by
  constructor
  · intro v hv
    obtain ⟨a, ha, hav⟩ := readWithRetryGo_ok _ v hv
    obtain ⟨hnl, sb, hsb, hafter, hread⟩ := attemptResult_some a v hav
    exact ⟨hnl, a, ha, hav, sb, hsb, hafter, hread⟩
  · intro hall
    exact readWithRetryGo_error _ hall

/-- A concrete stable read: one attempt seeing size 2 before and after a
read of the newline-terminated content accepts it. -/
theorem c5_stable_read_witness :
    (("a\n" : String) = "" ∨ endsWithNewline "a\n" = true) ∧
    ∃ a ∈ [ReadAttempt.mk (some 2) (some "a\n") (some 2)].take 5,
      attemptResult a = some "a\n" ∧
      ∃ sizeBefore, a.sizeBefore = some sizeBefore ∧
        a.sizeAfter.getD sizeBefore = sizeBefore ∧ a.readResult = some "a\n" :=
  (c5_stable_read [ReadAttempt.mk (some 2) (some "a\n") (some 2)]).1 "a\n" rfl

/-- C10 — Invalidation above `max_zoom` is register-only: for a coordinate
deeper than `max_zoom`, `handle_invalidation` still records the
invalidation (keeping the maximum of the existing and the new timestamp)
but deletes no cache file and modifies no index file. -/
theorem c10_register_only (cfg : TileProcessingConfig) (s : ProcState)
    (coord : TileCoord) (t : Nat) (h : cfg.maxZoom < coord.zoom) :
    handle_invalidation cfg s coord t
      = { s with register := recordInvalidation s.register coord t } ∧
    lookupBy (handle_invalidation cfg s coord t).register coord
      = some (match lookupBy s.register coord with | none => t | some t0 => max t0 t) := by
  have h1 : handle_invalidation cfg s coord t
      = { s with register := recordInvalidation s.register coord t } := by
    unfold handle_invalidation
    rw [if_neg (by omega)]
  exact ⟨h1, by rw [h1]; exact lookupBy_recordInvalidation s.register coord t⟩

/-- Concrete register-only invalidation: at `max_zoom = 3`, invalidating
zoom 4 only raises the register entry (keeping the larger timestamp 7). -/
theorem c10_register_only_witness :
    handle_invalidation ⟨2, 3, 0⟩ ⟨[(⟨4, 0, 0⟩, 7)], ⟨[], []⟩⟩ ⟨4, 0, 0⟩ 5
      = { register := recordInvalidation [(⟨4, 0, 0⟩, 7)] ⟨4, 0, 0⟩ 5, fs := ⟨[], []⟩ } ∧
    lookupBy (handle_invalidation ⟨2, 3, 0⟩ ⟨[(⟨4, 0, 0⟩, 7)], ⟨[], []⟩⟩ ⟨4, 0, 0⟩ 5).register ⟨4, 0, 0⟩
      = some (match lookupBy ([(⟨4, 0, 0⟩, 7)] : List (TileCoord × Nat)) ⟨4, 0, 0⟩ with
              | none => 5 | some t0 => max t0 5) :=
  c10_register_only ⟨2, 3, 0⟩ ⟨[(⟨4, 0, 0⟩, 7)], ⟨[], []⟩⟩ ⟨4, 0, 0⟩ 5 (by decide)

/-- C1 — the anti-stale guard in the source is reversed.  The claim (and
the spec) require a save to be dropped when a registered invalidation of
the tile is at or after the render start (`t1 ≥ t0`); the code's
`should_drop_save` instead drops when `render_started_at >= invalidated_at`.
With the register mapping the tile to time 100: a save whose render
started at 50 (stale — the claim requires it dropped) is persisted, the
cache file is written and the index entry appended; a save whose render
started at 150 (fresh — the claim allows it) is the one that is dropped. -/
theorem c1_reversed_guard_eval :
    shouldDropSave [(⟨12, 2048, 2048⟩, 100)] ⟨12, 2048, 2048⟩ 50 = false ∧
    (handle_save_tile ⟨2, 20, 0⟩ ⟨[(⟨12, 2048, 2048⟩, 100)], ⟨[], []⟩⟩ [7]
        ⟨12, 2048, 2048⟩ (.finite 1) 50).fs
      = ⟨[(⟨12, 2048, "2048@1.jpeg"⟩, [7])], [(⟨2, 2, 2⟩, ["12/2048/2048@1"])]⟩ ∧
    shouldDropSave [(⟨12, 2048, 2048⟩, 100)] ⟨12, 2048, 2048⟩ 150 = true ∧
    (handle_save_tile ⟨2, 20, 0⟩ ⟨[(⟨12, 2048, 2048⟩, 100)], ⟨[], []⟩⟩ [7]
        ⟨12, 2048, 2048⟩ (.finite 1) 150).fs
      = ⟨[], []⟩ := by
  refine ⟨by decide, by decide, by decide, by decide⟩

/-- Bit-or of an even number with a one-bit value is addition. -/
theorem twoMul_or_small (a b : Nat) (h : b < 2) : (2 * a) ||| b = 2 * a + b := by
  rcases (by omega : b = 0 ∨ b = 1) with rfl | rfl
  · simp
  · apply Nat.eq_of_testBit_eq
    intro i
    simp only [Nat.testBit_or]
    cases i with
    | zero =>
        have h0 : 2 * a % 2 = 0 := by omega
        have h1 : (2 * a + 1) % 2 = 1 := by omega
        simp [Nat.testBit_zero, h0, h1]
    | succ i =>
        simp only [Nat.testBit_succ]
        have h1 : 2 * a / 2 = a := by omega
        have h2 : (2 * a + 1) / 2 = a := by omega
        have h3 : (1 : Nat) / 2 = 0 := by omega
        rw [h1, h2, h3]
        simp

/-- Bits below `n` are unchanged by reduction mod `2^n`. -/
theorem bit_of_mod_pow (x n k : Nat) (h : k < n) :
    (x % 2 ^ n) >>> k % 2 = x >>> k % 2 := by
  have ht := Nat.testBit_mod_two_pow x n k
  rw [decide_eq_true h, Bool.true_and] at ht
  simp only [Nat.testBit_to_div_mod, ← Nat.shiftRight_eq_div_pow] at ht
  have h1 : (x % 2 ^ n) >>> k % 2 < 2 := Nat.mod_lt _ (by norm_num)
  have h2 : x >>> k % 2 < 2 := Nat.mod_lt _ (by norm_num)
  rw [decide_eq_decide] at ht
  by_cases hp : (x % 2 ^ n) >>> k % 2 = 1
  · rw [hp, ht.mp hp]
  · have hq : ¬ x >>> k % 2 = 1 := fun hq => hp (ht.mpr hq)
    omega

/-- The decoder's fold inverts the encoder's digit list: starting from
accumulators `(a, b)`, folding over the digits of `(x, y)` at `n` levels
produces `(a * 2^n + x, b * 2^n + y)` (no `u32` truncation occurs while
the results stay below `2^32`). -/
theorem quadkey_fold (n : Nat) :
    ∀ x y a b : Nat, x < 2 ^ n → y < 2 ^ n →
      a * 2 ^ n + x < 2 ^ 32 → b * 2 ^ n + y < 2 ^ 32 →
      ((List.range n).map (fun level =>
          (((y >>> (n - 1 - level)) % 2) <<< 1) ||| ((x >>> (n - 1 - level)) % 2))).foldl
        (fun p d => (((p.1 <<< 1) ||| (d % 2)) % 2 ^ 32,
                     ((p.2 <<< 1) ||| ((d >>> 1) % 2)) % 2 ^ 32)) (a, b)
      = (a * 2 ^ n + x, b * 2 ^ n + y) := by
  induction n with
  | zero =>
      intro x y a b hx hy _ _
      simp only [List.range_zero, List.map_nil, List.foldl_nil, pow_zero]
      obtain rfl : x = 0 := by omega
      obtain rfl : y = 0 := by omega
      simp
  | succ n ih =>
      intro x y a b hx hy ha hb
      set xb := x >>> n % 2 with hxb
      set yb := y >>> n % 2 with hyb
      have hxb2 : xb < 2 := Nat.mod_lt _ (by norm_num)
      have hyb2 : yb < 2 := Nat.mod_lt _ (by norm_num)
      have hd0 : ((yb <<< 1) ||| xb) % 2 = xb ∧ (((yb <<< 1) ||| xb) >>> 1) % 2 = yb := by
        rcases (by omega : xb = 0 ∨ xb = 1) with h1 | h1 <;>
          rcases (by omega : yb = 0 ∨ yb = 1) with h2 | h2 <;>
            rw [h1, h2] <;> exact ⟨by decide, by decide⟩
      have hxdecomp : x = xb * 2 ^ n + x % 2 ^ n := by
        have hlt : x / 2 ^ n < 2 := Nat.div_lt_of_lt_mul (by
          calc x < 2 ^ (n + 1) := hx
          _ = 2 ^ n * 2 := by ring)
        rw [hxb, Nat.shiftRight_eq_div_pow, Nat.mod_eq_of_lt hlt, Nat.mul_comm]
        exact (Nat.div_add_mod x (2 ^ n)).symm
      have hydecomp : y = yb * 2 ^ n + y % 2 ^ n := by
        have hlt : y / 2 ^ n < 2 := Nat.div_lt_of_lt_mul (by
          calc y < 2 ^ (n + 1) := hy
          _ = 2 ^ n * 2 := by ring)
        rw [hyb, Nat.shiftRight_eq_div_pow, Nat.mod_eq_of_lt hlt, Nat.mul_comm]
        exact (Nat.div_add_mod y (2 ^ n)).symm
      have hxbx : xb ≤ x := by
        rw [hxb]
        exact le_trans (Nat.mod_le _ _) (by rw [Nat.shiftRight_eq_div_pow]; exact Nat.div_le_self _ _)
      have hyby : yb ≤ y := by
        rw [hyb]
        exact le_trans (Nat.mod_le _ _) (by rw [Nat.shiftRight_eq_div_pow]; exact Nat.div_le_self _ _)
      have h2a : 2 * a ≤ a * 2 ^ (n + 1) := by
        calc 2 * a = a * 2 := by ring
        _ ≤ a * 2 ^ (n + 1) := Nat.mul_le_mul_left a (by
            have := Nat.one_le_two_pow (n := n)
            calc (2:Nat) = 2 * 1 := by ring
            _ ≤ 2 * 2 ^ n := by omega
            _ = 2 ^ (n + 1) := by ring)
      have h2b : 2 * b ≤ b * 2 ^ (n + 1) := by
        calc 2 * b = b * 2 := by ring
        _ ≤ b * 2 ^ (n + 1) := Nat.mul_le_mul_left b (by
            have := Nat.one_le_two_pow (n := n)
            calc (2:Nat) = 2 * 1 := by ring
            _ ≤ 2 * 2 ^ n := by omega
            _ = 2 ^ (n + 1) := by ring)
      rw [List.range_succ_eq_map, List.map_cons, List.map_map, List.foldl_cons]
      have hhead : (((y >>> (n + 1 - 1 - 0)) % 2) <<< 1) ||| ((x >>> (n + 1 - 1 - 0)) % 2)
          = (yb <<< 1) ||| xb := by
        have hn : n + 1 - 1 - 0 = n := by omega
        rw [hn, ← hxb, ← hyb]
      rw [hhead]
      have hstep : ((((a, b).1 <<< 1) ||| (((yb <<< 1) ||| xb) % 2)) % 2 ^ 32,
                    (((a, b).2 <<< 1) ||| ((((yb <<< 1) ||| xb) >>> 1) % 2)) % 2 ^ 32)
          = ((2 * a + xb : Nat), (2 * b + yb : Nat)) := by
        have e1 : (a, b).1 <<< 1 = 2 * a := by rw [Nat.shiftLeft_eq]; ring_nf
        have e2 : (a, b).2 <<< 1 = 2 * b := by rw [Nat.shiftLeft_eq]; ring_nf
        rw [e1, e2, hd0.1, hd0.2, twoMul_or_small a xb hxb2, twoMul_or_small b yb hyb2]
        have hb1 : 2 * a + xb < 2 ^ 32 := by omega
        have hb2 : 2 * b + yb < 2 ^ 32 := by omega
        rw [Nat.mod_eq_of_lt hb1, Nat.mod_eq_of_lt hb2]
      have htail : (List.range n).map
            ((fun level => (((y >>> (n + 1 - 1 - level)) % 2) <<< 1)
                ||| ((x >>> (n + 1 - 1 - level)) % 2)) ∘ Nat.succ)
          = (List.range n).map (fun level =>
              ((((y % 2 ^ n) >>> (n - 1 - level)) % 2) <<< 1)
                ||| (((x % 2 ^ n) >>> (n - 1 - level)) % 2)) := by
        apply List.map_congr_left
        intro l hl
        have hln : l < n := List.mem_range.mp hl
        have hbit : n + 1 - 1 - Nat.succ l = n - 1 - l := by omega
        have hlt : n - 1 - l < n := by omega
        simp only [Function.comp_apply, hbit,
          bit_of_mod_pow x n (n - 1 - l) hlt, bit_of_mod_pow y n (n - 1 - l) hlt]
      have hxm : x % 2 ^ n < 2 ^ n := Nat.mod_lt _ (Nat.pos_pow_of_pos n (by norm_num))
      have hym : y % 2 ^ n < 2 ^ n := Nat.mod_lt _ (Nat.pos_pow_of_pos n (by norm_num))
      have hax : (2 * a + xb) * 2 ^ n + x % 2 ^ n = a * 2 ^ (n + 1) + x := by
        conv_rhs => rw [hxdecomp]
        ring
      have hby : (2 * b + yb) * 2 ^ n + y % 2 ^ n = b * 2 ^ (n + 1) + y := by
        conv_rhs => rw [hydecomp]
        ring
      rw [hstep, htail, ih (x % 2 ^ n) (y % 2 ^ n) (2 * a + xb) (2 * b + yb) hxm hym
        (by omega) (by omega), hax, hby]

/-- A quadkey digit built from two bits is at most 3. -/
theorem digit_le_three (u v : Nat) (hu : u < 2) (hv : v < 2) : ((u <<< 1) ||| v) ≤ 3 := by
  rcases (by omega : u = 0 ∨ u = 1) with rfl | rfl <;>
    rcases (by omega : v = 0 ∨ v = 1) with rfl | rfl <;> decide

/-- Round-trip of the quadkey codec below zoom 32. -/
theorem c3_roundtrip_core (z x y : Nat) (hz : z < 32) (hx : x < 2 ^ z) (hy : y < 2 ^ z) :
    (quadkeyEncode ⟨z, x, y⟩).bind quadkeyDecode = some ⟨z, x, y⟩ := by
  have hpow : (2 : Nat) ^ z < 2 ^ 32 := Nat.pow_lt_pow_right (by norm_num) hz
  have hshl : shlU32 1 z = 2 ^ z := by
    unfold shlU32
    rw [Nat.mod_eq_of_lt (by omega : z < 32), Nat.shiftLeft_eq, one_mul, Nat.mod_eq_of_lt hpow]
  have henc : quadkeyEncode ⟨z, x, y⟩ = some ((List.range z).map (fun level =>
      (((y >>> (z - 1 - level)) % 2) <<< 1) ||| ((x >>> (z - 1 - level)) % 2))) := by
    unfold quadkeyEncode
    rw [if_pos (by omega : z ≤ 32),
      if_pos ⟨Or.inr (by rw [hshl]; exact hx), Or.inr (by rw [hshl]; exact hy)⟩]
  rw [henc, Option.some_bind]
  have hlen : ((List.range z).map (fun level =>
      (((y >>> (z - 1 - level)) % 2) <<< 1) ||| ((x >>> (z - 1 - level)) % 2))).length = z := by
    simp
  have hall : ((List.range z).map (fun level =>
      (((y >>> (z - 1 - level)) % 2) <<< 1) ||| ((x >>> (z - 1 - level)) % 2))).all
        (fun d => d ≤ 3) = true := by
    rw [List.all_eq_true]
    intro d hd
    simp only [List.mem_map] at hd
    obtain ⟨l, _, rfl⟩ := hd
    simp only [decide_eq_true_eq]
    exact digit_le_three _ _ (Nat.mod_lt _ (by norm_num)) (Nat.mod_lt _ (by norm_num))
  have hfold := quadkey_fold z x y 0 0 hx hy (by omega) (by omega)
  unfold quadkeyDecode
  rw [hlen, if_pos (by omega : z ≤ 32), hall, if_pos rfl]
  simp only [hfold]
  simp

/-- C3 counterexample — the claim's validity condition (`zoom ≤ 32`, and
`x,y < 2^zoom` only when `zoom > 0`) admits coordinates on which the
round-trip fails: `(0,5,7)` is "valid" but encodes to the empty quadkey,
which decodes to `(0,0,0)`; and `(32,1,0)` is "valid" but the encoder's
`assert!(x < (1u32 << 32))` fails (`1u32 << 32` is a panic in a debug
build and `1` under release shift-masking), so encoding panics instead of
round-tripping. -/
theorem c3_counterexample :
    ((0 : Nat) ≤ 32 ∧ ((0 : Nat) > 0 → (5 : Nat) < 2 ^ 0 ∧ (7 : Nat) < 2 ^ 0)) ∧
    (quadkeyEncode ⟨0, 5, 7⟩).bind quadkeyDecode ≠ some ⟨0, 5, 7⟩ ∧
    ((32 : Nat) ≤ 32 ∧ ((32 : Nat) > 0 → (1 : Nat) < 2 ^ 32 ∧ (0 : Nat) < 2 ^ 32)) ∧
    (quadkeyEncode ⟨32, 1, 0⟩).bind quadkeyDecode ≠ some ⟨32, 1, 0⟩ := by
  refine ⟨⟨by norm_num, by omega⟩, by decide, ⟨le_refl _, fun _ => ⟨by norm_num, by norm_num⟩⟩, by decide⟩

/-- C3 amended — quadkey round-trip on coordinates with `zoom < 32` and
`x, y < 2^zoom` (also at zoom 0): decoding the encoding restores the
coordinate, and `(5,10,20)` encodes to `[2,1,2,1,0]`. -/
theorem c3_roundtrip_amended (z x y : Nat) (hz : z < 32) (hx : x < 2 ^ z) (hy : y < 2 ^ z) :
    (quadkeyEncode ⟨z, x, y⟩).bind quadkeyDecode = some ⟨z, x, y⟩ ∧
    quadkeyEncode ⟨5, 10, 20⟩ = some [2, 1, 2, 1, 0] :=
  ⟨c3_roundtrip_core z x y hz hx hy, by decide⟩

/-- Concrete quadkey round-trip at `(5,10,20)`. -/
theorem c3_roundtrip_witness :
    (5 : Nat) < 32 ∧ (10 : Nat) < 2 ^ 5 ∧ (20 : Nat) < 2 ^ 5 ∧
    (quadkeyEncode ⟨5, 10, 20⟩).bind quadkeyDecode = some ⟨5, 10, 20⟩ :=
  ⟨by norm_num, by norm_num, by norm_num,
    (c3_roundtrip_amended 5 10 20 (by norm_num) (by norm_num) (by norm_num)).1⟩

/-- C6 — Tile request validation: a malformed `y` suffix is a 400; a
well-formed request returns 404 when the zoom exceeds `max_zoom`, 404
when (at a valid zoom) the scale is not within `f64::EPSILON` of any
allowed scale, and 400 when (at a valid zoom and scale) the extension is
neither `jpg` nor `jpeg` (after defaulting a missing extension to
`jpeg`); a suffix with neither `@` nor `.` parses with the scale
defaulted to `1.0` and no extension (later defaulted to `jpeg`). -/
theorem c6_serve_tile_validation (st : AppStateM) (zoom x : Nat) (suffix : String) (env : ServeEnv) :
    (parse_y_suffix suffix = none → getRoute st zoom x suffix env = .badRequest) ∧
    (∀ y scale ext, parse_y_suffix suffix = some (y, scale, ext) →
      (zoom > st.maxZoom → getRoute st zoom x suffix env = .notFound) ∧
      (zoom ≤ st.maxZoom →
        (st.allowedScales.any (fun allowed => scaleWithinEpsilon allowed scale)) = false →
        getRoute st zoom x suffix env = .notFound) ∧
      (zoom ≤ st.maxZoom →
        (st.allowedScales.any (fun allowed => scaleWithinEpsilon allowed scale)) = true →
        ext.getD "jpeg" ≠ "jpg" → ext.getD "jpeg" ≠ "jpeg" →
        getRoute st zoom x suffix env = .badRequest)) ∧
    (splitOnceStr suffix '@' = none → splitOnceStr suffix '.' = none →
      ∀ y, parseU32 suffix = some y →
        parse_y_suffix suffix = some (y, F64Val.finite 1, none)) := by
  refine ⟨?_, ?_, ?_⟩
  · intro h
    unfold getRoute
    rw [h]
  · intro y scale ext hp
    refine ⟨?_, ?_, ?_⟩
    · intro hz
      unfold getRoute
      rw [hp]
      unfold serve_tile
      dsimp only
      rw [if_pos hz]
    · intro hz hsc
      unfold getRoute
      rw [hp]
      unfold serve_tile
      dsimp only
      rw [if_neg (by omega), if_pos (by simp [hsc])]
    · intro hz hsc h1 h2
      unfold getRoute
      rw [hp]
      unfold serve_tile
      dsimp only
      rw [if_neg (by omega), if_neg (by simp [hsc]), if_pos ⟨h1, h2⟩]
  · intro hat hdot y hy
    unfold parse_y_suffix parseSuffixParts
    rw [hat, hdot]
    dsimp only
    rw [hy]

/-- Concrete route validations: malformed suffix, zoom beyond `max_zoom`,
disallowed finite and non-finite scales, unknown extension, the
defaulted plain-`y` parse, and suffixes exercising the wider `f64` and
`u32` grammars (`2.`, `.5`, `1e0`, a leading `+`). -/
theorem c6_serve_tile_validation_witness :
    getRoute ⟨20, [1, 2], false, false, true⟩ 5 3 "abc" ⟨false, none, .ok []⟩ = .badRequest ∧
    getRoute ⟨20, [1, 2], false, false, true⟩ 21 3 "123" ⟨false, none, .ok []⟩ = .notFound ∧
    getRoute ⟨20, [1, 2], false, false, true⟩ 5 3 "123@7x" ⟨false, none, .ok []⟩ = .notFound ∧
    getRoute ⟨20, [1, 2], false, false, true⟩ 5 3 "123@infx" ⟨false, none, .ok []⟩ = .notFound ∧
    getRoute ⟨20, [1, 2], false, false, true⟩ 5 3 "123@2x.png" ⟨false, none, .ok []⟩ = .badRequest ∧
    parse_y_suffix "123" = some (123, F64Val.finite 1, none) ∧
    parse_y_suffix "123@2.x" = some (123, F64Val.finite 2, none) ∧
    parse_y_suffix "123@.5x" = some (123, F64Val.finite (mkRat 5 10), none) ∧
    parse_y_suffix "123@1e0x" = some (123, F64Val.finite 1, none) ∧
    parse_y_suffix "+123" = some (123, F64Val.finite 1, none) :=
  ⟨(c6_serve_tile_validation ⟨20, [1, 2], false, false, true⟩ 5 3 "abc"
      ⟨false, none, .ok []⟩).1 (by decide),
   ((c6_serve_tile_validation ⟨20, [1, 2], false, false, true⟩ 21 3 "123"
      ⟨false, none, .ok []⟩).2.1 123 (.finite 1) none (by decide)).1 (by decide),
   ((c6_serve_tile_validation ⟨20, [1, 2], false, false, true⟩ 5 3 "123@7x"
      ⟨false, none, .ok []⟩).2.1 123 (.finite 7) none (by decide)).2.1 (by decide)
      (by norm_num [scaleWithinEpsilon, f64Epsilon]),
   ((c6_serve_tile_validation ⟨20, [1, 2], false, false, true⟩ 5 3 "123@infx"
      ⟨false, none, .ok []⟩).2.1 123 (.infinite false) none (by decide)).2.1 (by decide)
      (by decide),
   ((c6_serve_tile_validation ⟨20, [1, 2], false, false, true⟩ 5 3 "123@2x.png"
      ⟨false, none, .ok []⟩).2.1 123 (.finite 2) (some "png") (by decide)).2.2
      (by decide) (by norm_num [scaleWithinEpsilon, f64Epsilon]) (by decide) (by decide),
   (c6_serve_tile_validation ⟨20, [1, 2], false, false, true⟩ 5 3 "123"
      ⟨false, none, .ok []⟩).2.2 (by decide) (by decide) 123 (by decide),
   by decide, by decide, by decide, by decide⟩

/-- C4 counterexample — the index entry written by a save is not a
quadkey-keyed single scale byte: from an empty state, saving tile
`(12,2048,2048)` at scale 1 (index zoom 2) appends the 14-byte textual
line `"12/2048/2048@1"` to the index file of the ancestor index tile
`(2,2,2)` (a textual `{z}/{x}/{y}.index` path); the value the claim
prescribes, the single byte `round(scale)`, has length 1, and no index
record is keyed by the saved coordinate (whose quadkey is the 12-byte
`[3,0,...,0]`). -/
theorem c4_counterexample :
    (handle_save_tile ⟨2, 20, 0⟩ ⟨[], ⟨[], []⟩⟩ [7] ⟨12, 2048, 2048⟩ (.finite 1) 50).fs.indexFiles
      = [(⟨2, 2, 2⟩, [indexEntryLine ⟨12, 2048, 2048⟩ (.finite 1)])] ∧
    indexEntryLine ⟨12, 2048, 2048⟩ (.finite 1) = "12/2048/2048@1" ∧
    (indexEntryLine ⟨12, 2048, 2048⟩ (.finite 1)).data.length = 14 ∧
    List.length [((round (1 : ℚ)).toNat)] = 1 ∧
    quadkeyEncode ⟨12, 2048, 2048⟩ = some [3, 0, 0, 0, 0, 0, 0, 0, 0, 0, 0, 0] ∧
    lookupBy (handle_save_tile ⟨2, 20, 0⟩ ⟨[], ⟨[], []⟩⟩ [7]
        ⟨12, 2048, 2048⟩ (.finite 1) 50).fs.indexFiles ⟨12, 2048, 2048⟩ = none := by
  refine ⟨by decide, by decide, by decide, rfl, by decide, by decide⟩

/-- C4 amended — index keying and entry format as implemented: a
non-dropped save of a tile deeper than `index_zoom` appends the textual
line `{z}/{x}/{y}@{scale}` to the index file of the coordinate's ancestor
at `index_zoom` (append mode, so duplicates may accumulate); a save at or
above `index_zoom` leaves every index file unchanged. -/
theorem c4_index_append_amended (cfg : TileProcessingConfig) (s : ProcState) (data : List Nat)
    (coord : TileCoord) (scale : F64Val) (renderStartedAt : Nat)
    (hdrop : shouldDropSave s.register coord renderStartedAt = false) :
    (cfg.indexZoom < coord.zoom →
      lookupBy (handle_save_tile cfg s data coord scale renderStartedAt).fs.indexFiles
          ⟨cfg.indexZoom, coord.x >>> (coord.zoom - cfg.indexZoom),
            coord.y >>> (coord.zoom - cfg.indexZoom)⟩
        = some ((lookupBy s.fs.indexFiles
            ⟨cfg.indexZoom, coord.x >>> (coord.zoom - cfg.indexZoom),
              coord.y >>> (coord.zoom - cfg.indexZoom)⟩).getD []
          ++ [indexEntryLine coord scale])) ∧
    (coord.zoom ≤ cfg.indexZoom →
      (handle_save_tile cfg s data coord scale renderStartedAt).fs.indexFiles
        = s.fs.indexFiles) := by
  have hsave : (handle_save_tile cfg s data coord scale renderStartedAt).fs.indexFiles
      = (append_index_entry cfg s.fs coord scale).indexFiles := by
    unfold handle_save_tile
    rw [if_neg (by simp [hdrop])]
    rfl
  constructor
  · intro hzoom
    rw [hsave]
    unfold append_index_entry
    rw [if_neg (by omega)]
    unfold ancestorAtZoom
    rw [if_neg (by omega)]
    dsimp only
    unfold appendIndexLine
    cases hl : lookupBy s.fs.indexFiles
        ⟨cfg.indexZoom, coord.x >>> (coord.zoom - cfg.indexZoom),
          coord.y >>> (coord.zoom - cfg.indexZoom)⟩ with
    | some ls =>
        dsimp only
        simp only [Option.getD_some]
        exact lookupBy_map_setKey _ _ _ (by simp [hl])
    | none =>
        dsimp only
        simp only [Option.getD_none, List.nil_append]
        exact lookupBy_append_single _ _ _ hl
  · intro hzoom
    rw [hsave]
    unfold append_index_entry
    rw [if_pos hzoom]

/-- Concrete index append: saving `(12,2048,2048)` at scale 1 from the
empty state appends `"12/2048/2048@1"` to the index file of `(2,2,2)`. -/
theorem c4_index_append_witness :
    (2 : Nat) < 12 ∧
    lookupBy (handle_save_tile ⟨2, 20, 0⟩ ⟨[], ⟨[], []⟩⟩ [7]
        ⟨12, 2048, 2048⟩ (.finite 1) 50).fs.indexFiles ⟨2, 2, 2⟩
      = some ((lookupBy (⟨[], ⟨[], []⟩⟩ : ProcState).fs.indexFiles ⟨2, 2, 2⟩).getD []
          ++ [indexEntryLine ⟨12, 2048, 2048⟩ (.finite 1)]) :=
  ⟨by decide,
   (c4_index_append_amended ⟨2, 20, 0⟩ ⟨[], ⟨[], []⟩⟩ [7] ⟨12, 2048, 2048⟩ (.finite 1) 50 (by decide)).1 (by decide)⟩

theorem lookupBy_eq_none_iff {α β : Type} [DecidableEq α] (k : α) :
    ∀ l : List (α × β), lookupBy l k = none ↔ ∀ e ∈ l, e.1 ≠ k := by
  intro l
  induction l with
  | nil => simp [lookupBy]
  | cons e rest ih =>
      rw [lookupBy_cons]
      by_cases h : e.1 = k
      · simp [h]
      · simp only [if_neg h, ih]
        constructor
        · intro hr f hf
          rcases List.mem_cons.mp hf with rfl | hf
          · exact h
          · exact hr f hf
        · intro hr f hf
          exact hr f (List.mem_cons_of_mem _ hf)

theorem lookupBy_mem {α β : Type} [DecidableEq α] (k : α) (v : β) :
    ∀ l : List (α × β), lookupBy l k = some v → (k, v) ∈ l := by
  intro l
  induction l with
  | nil => simp [lookupBy]
  | cons e rest ih =>
      intro h
      rw [lookupBy_cons] at h
      by_cases he : e.1 = k
      · rw [if_pos he] at h
        have : e = (k, v) := by
          obtain rfl : e.2 = v := by simpa using h
          exact Prod.ext he rfl
        rw [← this]
        exact List.mem_cons_self e rest
      · rw [if_neg he] at h
        exact List.mem_cons_of_mem _ (ih h)

theorem lookupBy_eq_of_nodupKeys {α β : Type} [DecidableEq α] (k : α) :
    ∀ l : List (α × β), (l.map Prod.fst).Nodup → ∀ e ∈ l, e.1 = k →
      lookupBy l k = some e.2 := by
  intro l
  induction l with
  | nil => simp
  | cons f rest ih =>
      intro hnd e he hek
      rw [List.map_cons, List.nodup_cons] at hnd
      rw [lookupBy_cons]
      rcases List.mem_cons.mp he with rfl | he
      · rw [if_pos hek]
      · have hfk : f.1 ≠ k := by
          intro hf
          exact hnd.1 (by rw [hf, ← hek]; exact List.mem_map_of_mem Prod.fst he)
        rw [if_neg hfk]
        exact ih hnd.2 e he hek

theorem staleEntryFile_eq_none (target : TileCoord) (l : String)
    (h : entryIsStale target l = false) : staleEntryFile target l = none := by
  unfold entryIsStale at h
  unfold staleEntryFile
  cases hp : parseIndexEntry l with
  | none => rfl
  | some p =>
      rw [hp] at h
      obtain ⟨c, sc⟩ := p
      dsimp only at h ⊢
      rw [if_neg (by simp [h])]

theorem pit_of_lookup_none (cfg : TileProcessingConfig) (s : ProcState)
    (ic target : TileCoord) (h : lookupBy s.fs.indexFiles ic = none) :
    process_index_tile cfg s ic target = s := by
  unfold process_index_tile
  rw [h]

theorem pit_of_clean (cfg : TileProcessingConfig) (s : ProcState)
    (ic target : TileCoord) (lines : List String)
    (h : lookupBy s.fs.indexFiles ic = some lines)
    (hclean : cleanFor target lines) :
    process_index_tile cfg s ic target = s := by
  have hany : lines.any (fun l => entryIsStale target l) = false :=
    List.any_eq_false.mpr (fun l hl => by simp [hclean l hl])
  have hdel : lines.filterMap (fun l => staleEntryFile target l) = [] :=
    List.filterMap_eq_nil.mpr (fun l hl => staleEntryFile_eq_none target l (hclean l hl))
  unfold process_index_tile
  rw [h]
  dsimp only
  rw [hany, hdel]
  rfl

theorem pit_noop_id (cfg : TileProcessingConfig) (s : ProcState)
    (ic target : TileCoord) (h : pitNoop s ic target) :
    process_index_tile cfg s ic target = s := by
  unfold pitNoop at h
  cases hl : lookupBy s.fs.indexFiles ic with
  | none => exact pit_of_lookup_none cfg s ic target hl
  | some lines =>
      rw [hl] at h
      exact pit_of_clean cfg s ic target lines hl h

theorem pit_register (cfg : TileProcessingConfig) (s : ProcState) (ic target : TileCoord) :
    (process_index_tile cfg s ic target).register = s.register := by
  unfold process_index_tile
  cases hl : lookupBy s.fs.indexFiles ic with
  | none => rfl
  | some lines =>
      dsimp only
      split_ifs <;> rfl

theorem foldl_removeCacheFile_mem (f : CacheFile × List Nat) :
    ∀ (dels : List CacheFile) (cf : List (CacheFile × List Nat)),
      f ∈ dels.foldl removeCacheFile cf → f ∈ cf := by
  intro dels
  induction dels with
  | nil => intro cf h; simpa using h
  | cons d rest ih =>
      intro cf h
      have := ih (removeCacheFile cf d) (by simpa using h)
      exact List.mem_of_mem_filter this

theorem pit_cache_mono (cfg : TileProcessingConfig) (s : ProcState) (ic target : TileCoord)
    (f : CacheFile × List Nat) (h : f ∈ (process_index_tile cfg s ic target).fs.cacheFiles) :
    f ∈ s.fs.cacheFiles := by
  unfold process_index_tile at h
  cases hl : lookupBy s.fs.indexFiles ic with
  | none => rw [hl] at h; exact h
  | some lines =>
      rw [hl] at h
      dsimp only at h
      split_ifs at h <;> exact foldl_removeCacheFile_mem f _ _ h

theorem pit_indexKeys (cfg : TileProcessingConfig) (s : ProcState) (ic target : TileCoord) :
    (process_index_tile cfg s ic target).fs.indexFiles.map Prod.fst
      = s.fs.indexFiles.map Prod.fst := by
  unfold process_index_tile
  cases hl : lookupBy s.fs.indexFiles ic with
  | none => rfl
  | some lines =>
      dsimp only
      split_ifs with hr
      · dsimp only
        rw [List.map_map]
        apply List.map_congr_left
        intro e _
        by_cases he : e.1 = ic
        · simp [he]
        · simp [he]
      · rfl

theorem pit_lookup_other (cfg : TileProcessingConfig) (s : ProcState) (ic target k : TileCoord)
    (hk : k ≠ ic) :
    lookupBy (process_index_tile cfg s ic target).fs.indexFiles k
      = lookupBy s.fs.indexFiles k := by
  unfold process_index_tile
  cases hl : lookupBy s.fs.indexFiles ic with
  | none => rfl
  | some lines =>
      dsimp only
      split_ifs with hr
      · dsimp only
        exact lookupBy_map_setKey_other ic k _ hk s.fs.indexFiles
      · rfl

theorem pit_lookup_self (cfg : TileProcessingConfig) (s : ProcState) (ic target : TileCoord)
    (lines : List String) (h : lookupBy s.fs.indexFiles ic = some lines) :
    lookupBy (process_index_tile cfg s ic target).fs.indexFiles ic
      = some (if lines.any (fun l => entryIsStale target l)
              then lines.filter (fun l => ¬ entryIsStale target l)
              else lines) := by
  unfold process_index_tile
  rw [h]
  dsimp only
  split_ifs with hr
  · dsimp only
    exact lookupBy_map_setKey ic _ s.fs.indexFiles (by simp [h])
  · exact h

theorem pit_provenance (cfg : TileProcessingConfig) (s : ProcState) (ic target : TileCoord)
    (e : TileCoord × List String) (he : e ∈ (process_index_tile cfg s ic target).fs.indexFiles) :
    ∃ e0 ∈ s.fs.indexFiles, e.1 = e0.1 ∧ ∀ l ∈ e.2, l ∈ e0.2 := by
  unfold process_index_tile at he
  cases hl : lookupBy s.fs.indexFiles ic with
  | none =>
      rw [hl] at he
      exact ⟨e, he, rfl, fun l hl => hl⟩
  | some lines =>
      rw [hl] at he
      dsimp only at he
      split_ifs at he with hr
      · dsimp only at he
        obtain ⟨e1, he1, heq⟩ := List.mem_map.mp he
        by_cases h1 : e1.1 = ic
        · rw [if_pos h1] at heq
          refine ⟨(ic, lines), by rw [← h1]; exact (by
              have := lookupBy_mem ic lines s.fs.indexFiles hl
              rwa [← h1] at this), ?_, ?_⟩
          · rw [← heq]
          · intro l hml
            rw [← heq] at hml
            exact List.mem_of_mem_filter hml
        · rw [if_neg h1] at heq
          exact ⟨e1, he1, by rw [← heq], by rw [← heq]; exact fun l h => h⟩
      · exact ⟨e, he, rfl, fun l hl => hl⟩

theorem clean_of_mem_retained (target : TileCoord) (lines : List String) (l : String)
    (h : l ∈ lines.filter (fun l => ¬ entryIsStale target l)) :
    entryIsStale target l = false := by
  have := List.of_mem_filter h
  simpa using this

/-- The retained lines of a processed index file are clean. -/
theorem cleanFor_retained (target : TileCoord) (lines : List String) :
    cleanFor target (lines.filter (fun l => ¬ entryIsStale target l)) :=
  fun l hml => clean_of_mem_retained target lines l hml

theorem pit_keyClean_preserve (cfg : TileProcessingConfig) (s : ProcState)
    (ic target k : TileCoord)
    (h : ∀ e ∈ s.fs.indexFiles, e.1 = k → cleanFor target e.2) :
    ∀ e ∈ (process_index_tile cfg s ic target).fs.indexFiles, e.1 = k → cleanFor target e.2 := by
  intro e he hek
  unfold process_index_tile at he
  cases hl : lookupBy s.fs.indexFiles ic with
  | none => rw [hl] at he; exact h e he hek
  | some lines =>
      rw [hl] at he
      dsimp only at he
      split_ifs at he with hr
      · dsimp only at he
        obtain ⟨e1, he1, heq⟩ := List.mem_map.mp he
        by_cases h1 : e1.1 = ic
        · rw [if_pos h1] at heq
          rw [← heq]
          exact cleanFor_retained target lines
        · rw [if_neg h1] at heq
          rw [← heq]
          exact h e1 he1 (by rw [heq, hek])
      · exact h e he hek

theorem pit_keyClean_establish (cfg : TileProcessingConfig) (s : ProcState)
    (ic target : TileCoord) (hnd : (s.fs.indexFiles.map Prod.fst).Nodup) :
    ∀ e ∈ (process_index_tile cfg s ic target).fs.indexFiles, e.1 = ic → cleanFor target e.2 := by
  intro e he hek
  unfold process_index_tile at he
  cases hl : lookupBy s.fs.indexFiles ic with
  | none =>
      rw [hl] at he
      exact absurd hek ((lookupBy_eq_none_iff ic s.fs.indexFiles).mp hl e he)
  | some lines =>
      rw [hl] at he
      dsimp only at he
      split_ifs at he with hr
      · dsimp only at he
        obtain ⟨e1, he1, heq⟩ := List.mem_map.mp he
        by_cases h1 : e1.1 = ic
        · rw [if_pos h1] at heq
          rw [← heq]
          exact cleanFor_retained target lines
        · rw [if_neg h1] at heq
          exact absurd (by rw [heq, hek]) h1
      · have hself : lookupBy s.fs.indexFiles e.1 = some e.2 :=
          lookupBy_eq_of_nodupKeys e.1 s.fs.indexFiles hnd e he rfl
        rw [hek, hl] at hself
        obtain rfl : lines = e.2 := by simpa using hself
        intro l hml
        exact Bool.not_eq_true _ |>.mp (List.any_eq_false.mp (by simpa using hr) l hml)

theorem pit_noop_establish (cfg : TileProcessingConfig) (s : ProcState) (ic target : TileCoord) :
    pitNoop (process_index_tile cfg s ic target) ic target := by
  unfold pitNoop
  cases hl : lookupBy s.fs.indexFiles ic with
  | none =>
      rw [pit_of_lookup_none cfg s ic target hl, hl]
      trivial
  | some lines =>
      rw [pit_lookup_self cfg s ic target lines hl]
      split_ifs with hr
      · exact cleanFor_retained target lines
      · intro l hml
        exact Bool.not_eq_true _ |>.mp (List.any_eq_false.mp (by simpa using hr) l hml)

theorem pit_noop_preserve (cfg : TileProcessingConfig) (s : ProcState)
    (ic target k : TileCoord) (h : pitNoop s k target) :
    pitNoop (process_index_tile cfg s ic target) k target := by
  by_cases hk : k = ic
  · rw [hk]
    exact pit_noop_establish cfg s ic target
  · unfold pitNoop at h ⊢
    rw [pit_lookup_other cfg s ic target k hk]
    exact h

theorem foldlPit_register (cfg : TileProcessingConfig) (target : TileCoord) :
    ∀ (L : List TileCoord) (s : ProcState),
      (L.foldl (fun s ic => process_index_tile cfg s ic target) s).register = s.register := by
  intro L
  induction L with
  | nil => intro s; rfl
  | cons ic rest ih =>
      intro s
      rw [List.foldl_cons, ih, pit_register]

theorem foldlPit_cache_mono (cfg : TileProcessingConfig) (target : TileCoord) :
    ∀ (L : List TileCoord) (s : ProcState) (f : CacheFile × List Nat),
      f ∈ (L.foldl (fun s ic => process_index_tile cfg s ic target) s).fs.cacheFiles →
      f ∈ s.fs.cacheFiles := by
  intro L
  induction L with
  | nil => intro s f h; exact h
  | cons ic rest ih =>
      intro s f h
      rw [List.foldl_cons] at h
      exact pit_cache_mono cfg s ic target f (ih _ f h)

theorem foldlPit_indexKeys (cfg : TileProcessingConfig) (target : TileCoord) :
    ∀ (L : List TileCoord) (s : ProcState),
      (L.foldl (fun s ic => process_index_tile cfg s ic target) s).fs.indexFiles.map Prod.fst
        = s.fs.indexFiles.map Prod.fst := by
  intro L
  induction L with
  | nil => intro s; rfl
  | cons ic rest ih =>
      intro s
      rw [List.foldl_cons, ih, pit_indexKeys]

theorem foldlPit_noop_preserve (cfg : TileProcessingConfig) (target k : TileCoord) :
    ∀ (L : List TileCoord) (s : ProcState), pitNoop s k target →
      pitNoop (L.foldl (fun s ic => process_index_tile cfg s ic target) s) k target := by
  intro L
  induction L with
  | nil => intro s h; exact h
  | cons ic rest ih =>
      intro s h
      rw [List.foldl_cons]
      exact ih _ (pit_noop_preserve cfg s ic target k h)

theorem foldlPit_noop_establish (cfg : TileProcessingConfig) (target : TileCoord) :
    ∀ (L : List TileCoord) (s : ProcState) (k : TileCoord), k ∈ L →
      pitNoop (L.foldl (fun s ic => process_index_tile cfg s ic target) s) k target := by
  intro L
  induction L with
  | nil => intro s k h; exact absurd h (by simp)
  | cons ic rest ih =>
      intro s k hk
      rw [List.foldl_cons]
      rcases List.mem_cons.mp hk with rfl | hk
      · exact foldlPit_noop_preserve cfg target k rest _ (pit_noop_establish cfg s k target)
      · exact ih _ k hk

theorem foldlPit_id (cfg : TileProcessingConfig) (target : TileCoord) :
    ∀ (L : List TileCoord) (s : ProcState), (∀ k ∈ L, pitNoop s k target) →
      L.foldl (fun s ic => process_index_tile cfg s ic target) s = s := by
  intro L
  induction L with
  | nil => intro s _; rfl
  | cons ic rest ih =>
      intro s h
      rw [List.foldl_cons, pit_noop_id cfg s ic target (h ic (by simp))]
      exact ih s (fun k hk => h k (List.mem_cons_of_mem _ hk))

theorem foldlPit_provenance (cfg : TileProcessingConfig) (target : TileCoord) :
    ∀ (L : List TileCoord) (s : ProcState) (e : TileCoord × List String),
      e ∈ (L.foldl (fun s ic => process_index_tile cfg s ic target) s).fs.indexFiles →
      ∃ e0 ∈ s.fs.indexFiles, e.1 = e0.1 ∧ ∀ l ∈ e.2, l ∈ e0.2 := by
  intro L
  induction L with
  | nil => intro s e h; exact ⟨e, h, rfl, fun l hl => hl⟩
  | cons ic rest ih =>
      intro s e h
      rw [List.foldl_cons] at h
      obtain ⟨e1, he1, hk1, hs1⟩ := ih _ e h
      obtain ⟨e0, he0, hk0, hs0⟩ := pit_provenance cfg s ic target e1 he1
      exact ⟨e0, he0, by rw [hk1, hk0], fun l hl => hs0 l (hs1 l hl)⟩

theorem foldlPit_keyClean_preserve (cfg : TileProcessingConfig) (target k : TileCoord) :
    ∀ (L : List TileCoord) (s : ProcState),
      (∀ e ∈ s.fs.indexFiles, e.1 = k → cleanFor target e.2) →
      ∀ e ∈ (L.foldl (fun s ic => process_index_tile cfg s ic target) s).fs.indexFiles,
        e.1 = k → cleanFor target e.2 := by
  intro L
  induction L with
  | nil => intro s h; exact h
  | cons ic rest ih =>
      intro s h
      rw [List.foldl_cons]
      exact ih _ (pit_keyClean_preserve cfg s ic target k h)

theorem foldlPit_keyClean_establish (cfg : TileProcessingConfig) (target : TileCoord) :
    ∀ (L : List TileCoord) (s : ProcState), (s.fs.indexFiles.map Prod.fst).Nodup →
      ∀ k ∈ L, ∀ e ∈ (L.foldl (fun s ic => process_index_tile cfg s ic target) s).fs.indexFiles,
        e.1 = k → cleanFor target e.2 := by
  intro L
  induction L with
  | nil => intro s _ k hk; exact absurd hk (by simp)
  | cons ic rest ih =>
      intro s hnd k hk
      rw [List.foldl_cons]
      rcases List.mem_cons.mp hk with rfl | hk
      · exact foldlPit_keyClean_preserve cfg target k rest _
          (pit_keyClean_establish cfg s k target hnd)
      · exact ih _ (by rw [pit_indexKeys]; exact hnd) k hk

theorem dtf_register (cfg : TileProcessingConfig) (s : ProcState) (c : TileCoord) :
    (delete_tile_files cfg s c).register = s.register := rfl

theorem dtf_indexFiles (cfg : TileProcessingConfig) (s : ProcState) (c : TileCoord) :
    (delete_tile_files cfg s c).fs.indexFiles = s.fs.indexFiles := rfl

theorem dtf_cache_mono (cfg : TileProcessingConfig) (s : ProcState) (c : TileCoord)
    (f : CacheFile × List Nat) (h : f ∈ (delete_tile_files cfg s c).fs.cacheFiles) :
    f ∈ s.fs.cacheFiles := List.mem_of_mem_filter h

theorem dtf_removes (cfg : TileProcessingConfig) (s : ProcState) (c : TileCoord) :
    ∀ f ∈ (delete_tile_files cfg s c).fs.cacheFiles, ¬ matchesTileFiles c f.1 := by
  intro f hf
  have := List.of_mem_filter hf
  simpa using this

theorem dtf_comm (cfg : TileProcessingConfig) (s : ProcState) (a b : TileCoord) :
    delete_tile_files cfg (delete_tile_files cfg s a) b
      = delete_tile_files cfg (delete_tile_files cfg s b) a := by
  unfold delete_tile_files
  dsimp only
  rw [List.filter_filter, List.filter_filter]
  congr 2
  apply List.filter_congr
  intro e _
  exact Bool.and_comm _ _

theorem dtf_idem (cfg : TileProcessingConfig) (s : ProcState) (c : TileCoord) :
    delete_tile_files cfg (delete_tile_files cfg s c) c = delete_tile_files cfg s c := by
  unfold delete_tile_files
  dsimp only
  rw [List.filter_filter]
  congr 2
  apply List.filter_congr
  intro e _
  exact Bool.and_self _

theorem isAncestorOf_iff (a b : TileCoord) :
    isAncestorOf a b = true ↔
      a.zoom ≤ b.zoom ∧ b.x >>> (b.zoom - a.zoom) = a.x ∧ b.y >>> (b.zoom - a.zoom) = a.y := by
  unfold isAncestorOf
  simp [Bool.and_eq_true, and_assoc]

theorem isAncestorOf_parent (P c p : TileCoord) (h : isAncestorOf P c = true)
    (hz : P.zoom < c.zoom) (hp : c.parent = some p) : isAncestorOf P p = true := by
  obtain ⟨hle, hx, hy⟩ := (isAncestorOf_iff P c).mp h
  unfold TileCoord.parent at hp
  rw [if_neg (by omega)] at hp
  obtain rfl : (⟨c.zoom - 1, c.x / 2, c.y / 2⟩ : TileCoord) = p := by simpa using hp
  refine (isAncestorOf_iff P _).mpr ⟨by dsimp only; omega, ?_, ?_⟩
  · show (c.x / 2) >>> (c.zoom - 1 - P.zoom) = P.x
    rw [← Nat.shiftRight_one, ← Nat.shiftRight_add, ← hx]
    congr 1
    omega
  · show (c.y / 2) >>> (c.zoom - 1 - P.zoom) = P.y
    rw [← Nat.shiftRight_one, ← Nat.shiftRight_add, ← hy]
    congr 1
    omega

theorem parent_of_ancestor_succ (P c : TileCoord) (h : isAncestorOf P c = true)
    (hz : P.zoom + 1 = c.zoom) : c.parent = some P := by
  obtain ⟨hle, hx, hy⟩ := (isAncestorOf_iff P c).mp h
  unfold TileCoord.parent
  rw [if_neg (by omega)]
  congr 1
  have hdelta : c.zoom - P.zoom = 1 := by omega
  rw [hdelta] at hx hy
  rw [Nat.shiftRight_one] at hx hy
  obtain ⟨pz, px, py⟩ := P
  dsimp only at *
  rw [hx, hy]
  congr 1
  omega

theorem ancestorAtZoom_of_ancestor (A c : TileCoord) (iz : Nat)
    (h : isAncestorOf A c = true) (hiz : iz < A.zoom) :
    ancestorAtZoom c iz = ancestorAtZoom A iz := by
  obtain ⟨hle, hx, hy⟩ := (isAncestorOf_iff A c).mp h
  unfold ancestorAtZoom
  rw [if_neg (by omega), if_neg (by omega)]
  have ex : c.x >>> (c.zoom - iz) = A.x >>> (A.zoom - iz) := by
    rw [← hx, ← Nat.shiftRight_add]
    congr 1
    omega
  have ey : c.y >>> (c.zoom - iz) = A.y >>> (A.zoom - iz) := by
    rw [← hy, ← Nat.shiftRight_add]
    congr 1
    omega
  rw [ex, ey]

theorem mem_ditCoords (cfg : TileProcessingConfig) (A c ic : TileCoord)
    (hanc : isAncestorOf A c = true) (hiz : cfg.indexZoom < c.zoom)
    (hic : ancestorAtZoom c cfg.indexZoom = some ic) : ic ∈ ditCoords cfg A := by
  obtain ⟨hle, hx, hy⟩ := (isAncestorOf_iff A c).mp hanc
  unfold ditCoords
  by_cases hA : cfg.indexZoom < A.zoom
  · rw [ancestorAtZoom_of_ancestor A c cfg.indexZoom hanc hA] at hic
    unfold ancestorAtZoom at hic ⊢
    rw [if_neg (by omega)] at hic ⊢
    obtain rfl : (⟨cfg.indexZoom, A.x >>> (A.zoom - cfg.indexZoom),
        A.y >>> (A.zoom - cfg.indexZoom)⟩ : TileCoord) = ic := by simpa using hic
    simp
  · have hAz : A.zoom ≤ cfg.indexZoom := by omega
    rw [show ancestorAtZoom A cfg.indexZoom = none by unfold ancestorAtZoom; rw [if_pos (by omega)]]
    unfold ancestorAtZoom at hic
    rw [if_neg (by omega)] at hic
    obtain rfl : (⟨cfg.indexZoom, c.x >>> (c.zoom - cfg.indexZoom),
        c.y >>> (c.zoom - cfg.indexZoom)⟩ : TileCoord) = ic := by simpa using hic
    dsimp only
    set k := cfg.indexZoom - A.zoom with hk
    set vx := c.x >>> (c.zoom - cfg.indexZoom) with hvx
    set vy := c.y >>> (c.zoom - cfg.indexZoom) with hvy
    have hvxd : vx / 2 ^ k = A.x := by
      rw [hvx, ← Nat.shiftRight_eq_div_pow, ← Nat.shiftRight_add, ← hx]
      congr 1
      omega
    have hvyd : vy / 2 ^ k = A.y := by
      rw [hvy, ← Nat.shiftRight_eq_div_pow, ← Nat.shiftRight_add, ← hy]
      congr 1
      omega
    rw [List.mem_flatMap]
    refine ⟨vx % 2 ^ k, List.mem_range.mpr (Nat.mod_lt _ (Nat.pos_pow_of_pos k (by norm_num))), ?_⟩
    rw [List.mem_map]
    refine ⟨vy % 2 ^ k, List.mem_range.mpr (Nat.mod_lt _ (Nat.pos_pow_of_pos k (by norm_num))), ?_⟩
    have ex : A.x * 2 ^ k + vx % 2 ^ k = vx := by
      conv_rhs => rw [← Nat.div_add_mod vx (2 ^ k)]
      rw [hvxd, Nat.mul_comm]
    have ey : A.y * 2 ^ k + vy % 2 ^ k = vy := by
      conv_rhs => rw [← Nat.div_add_mod vy (2 ^ k)]
      rw [hvyd, Nat.mul_comm]
    rw [ex, ey]

theorem dptGo_register (cfg : TileProcessingConfig) :
    ∀ (fuel : Nat) (s : ProcState) (c : TileCoord),
      (deleteParentGo cfg fuel s c).register = s.register := by
  intro fuel
  induction fuel with
  | zero => intro s c; rfl
  | succ fuel ih =>
      intro s c
      unfold deleteParentGo
      split_ifs with hz
      · cases hp : c.parent with
        | none => rfl
        | some p =>
            dsimp only
            rw [ih]
            split_ifs <;> rfl
      · rfl

theorem dptGo_indexFiles (cfg : TileProcessingConfig) :
    ∀ (fuel : Nat) (s : ProcState) (c : TileCoord),
      (deleteParentGo cfg fuel s c).fs.indexFiles = s.fs.indexFiles := by
  intro fuel
  induction fuel with
  | zero => intro s c; rfl
  | succ fuel ih =>
      intro s c
      unfold deleteParentGo
      split_ifs with hz
      · cases hp : c.parent with
        | none => rfl
        | some p =>
            dsimp only
            rw [ih]
            split_ifs <;> rfl
      · rfl

theorem dptGo_cache_mono (cfg : TileProcessingConfig) :
    ∀ (fuel : Nat) (s : ProcState) (c : TileCoord) (f : CacheFile × List Nat),
      f ∈ (deleteParentGo cfg fuel s c).fs.cacheFiles → f ∈ s.fs.cacheFiles := by
  intro fuel
  induction fuel with
  | zero => intro s c f h; exact h
  | succ fuel ih =>
      intro s c f h
      unfold deleteParentGo at h
      split_ifs at h with hz
      · cases hp : c.parent with
        | none => rw [hp] at h; exact h
        | some p =>
            rw [hp] at h
            dsimp only at h
            have := ih _ p f h
            split_ifs at this with hpz
            · exact this
            · exact dtf_cache_mono cfg s p f this
      · exact h

theorem dptGo_removes (cfg : TileProcessingConfig) :
    ∀ (fuel : Nat) (s : ProcState) (c P : TileCoord),
      c.zoom ≤ fuel → isAncestorOf P c = true → P.zoom < c.zoom →
      cfg.invalidateMinZoom ≤ P.zoom → P.zoom ≤ cfg.indexZoom →
      ∀ f ∈ (deleteParentGo cfg fuel s c).fs.cacheFiles, ¬ matchesTileFiles P f.1 := by
  intro fuel
  induction fuel with
  | zero => intro s c P hfuel _ hzlt _ _; omega
  | succ fuel ih =>
      intro s c P hfuel hanc hzlt hmin hiz f hf
      have hp : c.parent = some ⟨c.zoom - 1, c.x / 2, c.y / 2⟩ := by
        unfold TileCoord.parent
        rw [if_neg (by omega)]
      unfold deleteParentGo at hf
      rw [if_pos (by omega), hp] at hf
      dsimp only at hf
      by_cases hsucc : P.zoom + 1 = c.zoom
      · have hpp : c.parent = some P := parent_of_ancestor_succ P c hanc hsucc
        rw [hp] at hpp
        obtain hPeq : (⟨c.zoom - 1, c.x / 2, c.y / 2⟩ : TileCoord) = P := by simpa using hpp
        rw [hPeq] at hf
        rw [if_neg (by omega)] at hf
        exact dtf_removes cfg s P f (dptGo_cache_mono cfg fuel _ P f hf)
      · have hanc2 : isAncestorOf P ⟨c.zoom - 1, c.x / 2, c.y / 2⟩ = true :=
          isAncestorOf_parent P c _ hanc (by omega) hp
        exact ih _ _ P (by dsimp only; omega) hanc2 (by dsimp only; omega) hmin hiz f hf

theorem dtf_dptGo_comm (cfg : TileProcessingConfig) :
    ∀ (fuel : Nat) (q : TileCoord) (s : ProcState) (c : TileCoord),
      delete_tile_files cfg (deleteParentGo cfg fuel s c) q
        = deleteParentGo cfg fuel (delete_tile_files cfg s q) c := by
  intro fuel
  induction fuel with
  | zero => intro q s c; rfl
  | succ fuel ih =>
      intro q s c
      unfold deleteParentGo
      split_ifs with hz
      · cases hp : c.parent with
        | none => rfl
        | some p =>
            dsimp only
            rw [ih]
            split_ifs with hpz
            · rfl
            · rw [dtf_comm]
      · rfl

theorem deleteParentGo_succ (cfg : TileProcessingConfig) (fuel : Nat)
    (s : ProcState) (c : TileCoord) :
    deleteParentGo cfg (fuel + 1) s c
      = if c.zoom > cfg.invalidateMinZoom then
          match c.parent with
          | none => s
          | some p =>
              deleteParentGo cfg fuel
                (if p.zoom > cfg.indexZoom then s else delete_tile_files cfg s p) p
        else s := rfl

theorem dptGo_idem (cfg : TileProcessingConfig) :
    ∀ (fuel : Nat) (s : ProcState) (c : TileCoord),
      deleteParentGo cfg fuel (deleteParentGo cfg fuel s c) c = deleteParentGo cfg fuel s c := by
  intro fuel
  induction fuel with
  | zero => intro s c; rfl
  | succ fuel ih =>
      intro s c
      by_cases hz : c.zoom > cfg.invalidateMinZoom
      · cases hp : c.parent with
        | none =>
            conv_lhs => rw [deleteParentGo_succ]
            rw [if_pos hz, hp]
        | some p =>
            conv_lhs => rw [deleteParentGo_succ]
            rw [if_pos hz, hp]
            rw [deleteParentGo_succ cfg fuel s c, if_pos hz, hp]
            dsimp only
            by_cases hpz : p.zoom > cfg.indexZoom
            · rw [if_pos hpz, if_pos hpz]
              exact ih s p
            · rw [if_neg hpz, if_neg hpz]
              rw [dtf_dptGo_comm, dtf_idem]
              exact ih _ p
      · conv_lhs => rw [deleteParentGo_succ]
        rw [if_neg hz]

theorem dpt_register (cfg : TileProcessingConfig) (s : ProcState) (c : TileCoord) :
    (delete_parent_tiles cfg s c).register = s.register := by
  unfold delete_parent_tiles
  split_ifs
  · rfl
  · exact dptGo_register cfg c.zoom s c

theorem dpt_indexFiles (cfg : TileProcessingConfig) (s : ProcState) (c : TileCoord) :
    (delete_parent_tiles cfg s c).fs.indexFiles = s.fs.indexFiles := by
  unfold delete_parent_tiles
  split_ifs
  · rfl
  · exact dptGo_indexFiles cfg c.zoom s c

theorem dpt_idem (cfg : TileProcessingConfig) (s : ProcState) (c : TileCoord) :
    delete_parent_tiles cfg (delete_parent_tiles cfg s c) c = delete_parent_tiles cfg s c := by
  unfold delete_parent_tiles
  split_ifs
  · rfl
  · exact dptGo_idem cfg c.zoom s c

theorem dit_register (cfg : TileProcessingConfig) (s : ProcState) (c : TileCoord) :
    (delete_indexed_tiles cfg s c).register = s.register :=
  foldlPit_register cfg c (ditCoords cfg c) s

theorem pitNoop_of_indexFiles_eq (ss tt : ProcState) (k target : TileCoord)
    (h : tt.fs.indexFiles = ss.fs.indexFiles) (hn : pitNoop ss k target) :
    pitNoop tt k target := by
  unfold pitNoop at hn ⊢
  rw [h]
  exact hn

theorem record_idem (reg : List (TileCoord × Nat)) (c : TileCoord) (t : Nat) :
    recordInvalidation (recordInvalidation reg c t) c t = recordInvalidation reg c t := by
  cases hl : lookupBy reg c with
  | none =>
      unfold recordInvalidation
      rw [hl]
      dsimp only
      rw [show lookupBy ((c, t) :: reg) c = some t by rw [lookupBy_cons]; simp]
      dsimp only
      rw [List.map_cons]
      have h1 : (if ((c, t) : TileCoord × Nat).1 = c then (c, if t < t then t else t) else (c, t))
          = (c, t) := by simp
      rw [h1]
      congr 1
      have h2 : ∀ e ∈ reg, (fun e : TileCoord × Nat =>
          if e.1 = c then (c, if t < t then t else t) else e) e = id e := by
        intro e he
        have : e.1 ≠ c := (lookupBy_eq_none_iff c reg).mp hl e he
        simp [this]
      rw [List.map_congr_left h2, List.map_id]
  | some t0 =>
      unfold recordInvalidation
      rw [hl]
      dsimp only
      rw [lookupBy_map_setKey c (if t0 < t then t else t0) reg (by simp [hl])]
      dsimp only
      rw [List.map_map]
      apply List.map_congr_left
      intro e _
      by_cases he : e.1 = c
      · have hv : (if (if t0 < t then t else t0) < t then t else if t0 < t then t else t0)
            = (if t0 < t then t else t0) := by
          split_ifs <;> omega
        simp [Function.comp_apply, he, hv]
      · simp [Function.comp_apply, he]

/-- C8 — Idempotent invalidation: for every configuration, starting state
(cache files, index contents, invalidation register), coordinate and
timestamp, applying `handle_invalidation` twice in succession leaves
exactly the state of applying it once: the register update is a `max`,
the second index scan finds only retained (non-stale) lines and leaves
every file untouched, and the parent-file deletions are filters, which
are idempotent. -/
theorem c8_invalidation_idempotent (cfg : TileProcessingConfig) (s : ProcState) (coord : TileCoord) (t : Nat) :
    handle_invalidation cfg (handle_invalidation cfg s coord t) coord t
      = handle_invalidation cfg s coord t := by
  unfold handle_invalidation
  by_cases hz : coord.zoom ≤ cfg.maxZoom
  · rw [if_pos hz, if_pos hz]
    set s1 : ProcState := { s with register := recordInvalidation s.register coord t } with hs1
    set B : ProcState :=
      delete_parent_tiles cfg (delete_indexed_tiles cfg s1 coord) coord with hB
    have hBreg : B.register = recordInvalidation s.register coord t := by
      rw [hB, dpt_register, dit_register]
    have hrec : { B with register := recordInvalidation B.register coord t } = B := by
      rw [hBreg, record_idem, ← hBreg]
    rw [hrec]
    have hBidx : B.fs.indexFiles = (delete_indexed_tiles cfg s1 coord).fs.indexFiles := by
      rw [hB, dpt_indexFiles]
    have hnoop : ∀ k ∈ ditCoords cfg coord, pitNoop B k coord := fun k hk =>
      pitNoop_of_indexFiles_eq _ B k coord hBidx
        (foldlPit_noop_establish cfg coord (ditCoords cfg coord) s1 k hk)
    have hditB : delete_indexed_tiles cfg B coord = B :=
      foldlPit_id cfg coord (ditCoords cfg coord) B hnoop
    rw [hditB, hB, dpt_idem]
  · rw [if_neg hz, if_neg hz]
    dsimp only
    rw [record_idem]

/-- C2 counterexample — the claim fails as stated on two points.  With
`max_zoom = 3`, invalidating `A = (4,0,0)` (zoom above `max_zoom`) leaves
the index entry `"4/0/0@1"` for `A` itself in place, although its key is
in `A`'s subtree.  With `index_zoom = 1`, invalidating `A = (3,0,0)`
leaves both the cached file and the index entry of the ancestor
`P = (2,0,0)` (zoom 2 > index_zoom, `P.zoom ≥ invalidate_min_zoom = 0`)
in place, because `delete_parent_tiles` skips ancestors deeper than the
index zoom and `delete_indexed_tiles` only touches descendants. -/
theorem c2_counterexample :
    (handle_invalidation ⟨2, 3, 0⟩ ⟨[], ⟨[], [(⟨2, 0, 0⟩, ["4/0/0@1"])]⟩⟩ ⟨4, 0, 0⟩ 5).fs.indexFiles
      = [(⟨2, 0, 0⟩, ["4/0/0@1"])] ∧
    parseIndexEntry "4/0/0@1" = some (⟨4, 0, 0⟩, F64Val.finite 1) ∧
    isAncestorOf ⟨4, 0, 0⟩ ⟨4, 0, 0⟩ = true ∧
    (handle_invalidation ⟨1, 10, 0⟩
        ⟨[], ⟨[(⟨2, 0, "0@1.jpeg"⟩, [1])], [(⟨1, 0, 0⟩, ["2/0/0@1"])]⟩⟩ ⟨3, 0, 0⟩ 5).fs
      = ⟨[(⟨2, 0, "0@1.jpeg"⟩, [1])], [(⟨1, 0, 0⟩, ["2/0/0@1"])]⟩ ∧
    isAncestorOf ⟨2, 0, 0⟩ ⟨3, 0, 0⟩ = true ∧
    matchesTileFiles ⟨2, 0, 0⟩ ⟨2, 0, "0@1.jpeg"⟩ := by
  refine ⟨by decide, by decide, by decide, by decide, by decide, by decide⟩

/-- C2 amended — eventual purge as implemented, for well-indexed states
(index entries in their canonical files, distinct file paths) and
`A.zoom ≤ max_zoom`: (i) after `handle_invalidation(A, t)` no index line
parses to a tile in the subtree rooted at `A`; (ii) every proper ancestor
`P` of `A` with `invalidate_min_zoom ≤ P.zoom ≤ index_zoom` has its
cached files deleted; (iii) no index line parses to any tile at or above
the index zoom (such tiles, including the remaining ancestors, never have
index entries). -/
theorem c2_purge_amended (cfg : TileProcessingConfig) (s : ProcState) (A : TileCoord) (t : Nat)
    (hwi : WellIndexed cfg s.fs) (hz : A.zoom ≤ cfg.maxZoom) :
    (∀ e ∈ (handle_invalidation cfg s A t).fs.indexFiles, ∀ l ∈ e.2, ∀ c sc,
        parseIndexEntry l = some (c, sc) → isAncestorOf A c = false) ∧
    (∀ P : TileCoord, isAncestorOf P A = true → P.zoom < A.zoom →
        cfg.invalidateMinZoom ≤ P.zoom → P.zoom ≤ cfg.indexZoom →
        ∀ f ∈ (handle_invalidation cfg s A t).fs.cacheFiles, ¬ matchesTileFiles P f.1) ∧
    (∀ P : TileCoord, P.zoom ≤ cfg.indexZoom →
        ∀ e ∈ (handle_invalidation cfg s A t).fs.indexFiles, ∀ l ∈ e.2, ∀ sc,
          parseIndexEntry l ≠ some (P, sc)) := by
  have hinv : handle_invalidation cfg s A t
      = delete_parent_tiles cfg
          (delete_indexed_tiles cfg { s with register := recordInvalidation s.register A t } A) A := by
    unfold handle_invalidation
    rw [if_pos hz]
  set s1 : ProcState := { s with register := recordInvalidation s.register A t } with hs1
  have hs1fs : s1.fs = s.fs := rfl
  have hidx : (handle_invalidation cfg s A t).fs.indexFiles
      = (delete_indexed_tiles cfg s1 A).fs.indexFiles := by
    rw [hinv, dpt_indexFiles]
  have hcanon : ∀ e0 ∈ s1.fs.indexFiles, ∀ l ∈ e0.2, ∀ c sc,
      parseIndexEntry l = some (c, sc) →
      cfg.indexZoom < c.zoom ∧ ancestorAtZoom c cfg.indexZoom = some e0.1 := by
    intro e0 he0 l hl c sc hp
    have := hwi.2 e0 (by rw [← hs1fs] at he0; exact he0) l hl
    unfold entryCanonical at this
    rw [hp] at this
    simp only [Bool.and_eq_true, decide_eq_true_eq, beq_iff_eq] at this
    exact this
  refine ⟨?_, ?_, ?_⟩
  · intro e he l hl c sc hp
    by_contra hne
    have hstale : isAncestorOf A c = true := by
      cases hb : isAncestorOf A c
      · exact absurd hb hne
      · rfl
    rw [hidx] at he
    obtain ⟨e0, he0, hkey, hsub⟩ :=
      foldlPit_provenance cfg A (ditCoords cfg A) s1 e he
    obtain ⟨hzoomc, hanc⟩ := hcanon e0 he0 l (hsub l hl) c sc hp
    rw [← hkey] at hanc
    have hmem : e.1 ∈ ditCoords cfg A := mem_ditCoords cfg A c e.1 hstale hzoomc hanc
    have hclean := foldlPit_keyClean_establish cfg A (ditCoords cfg A) s1
      (by rw [hs1fs]; exact hwi.1) e.1 hmem e he rfl
    have := hclean l hl
    unfold entryIsStale at this
    rw [hp] at this
    dsimp only at this
    rw [hstale] at this
    exact absurd this (by simp)
  · intro P hanc hplt hpmin hpiz f hf
    rw [hinv] at hf
    unfold delete_parent_tiles at hf
    rw [if_neg (by omega)] at hf
    exact dptGo_removes cfg A.zoom _ A P (le_refl _) hanc hplt hpmin hpiz f hf
  · intro P hpiz e he l hl sc hp
    rw [hidx] at he
    obtain ⟨e0, he0, hkey, hsub⟩ :=
      foldlPit_provenance cfg A (ditCoords cfg A) s1 e he
    obtain ⟨hzoomc, _⟩ := hcanon e0 he0 l (hsub l hl) P sc hp
    omega

/-- Concrete purge: invalidating `(12,2048,2048)` at `index_zoom = 2`,
`max_zoom = 20`, `invalidate_min_zoom = 0` on a state holding the index
entry `"12/2048/2048@1"` in index file `(2,2,2)`. -/
theorem c2_purge_witness :
    (∀ e ∈ (handle_invalidation ⟨2, 20, 0⟩
        ⟨[], ⟨[(⟨11, 1024, "1024@1.jpeg"⟩, [1])], [(⟨2, 2, 2⟩, ["12/2048/2048@1"])]⟩⟩
        ⟨12, 2048, 2048⟩ 5).fs.indexFiles, ∀ l ∈ e.2, ∀ c sc,
        parseIndexEntry l = some (c, sc) → isAncestorOf ⟨12, 2048, 2048⟩ c = false) ∧
    (∀ P : TileCoord, isAncestorOf P ⟨12, 2048, 2048⟩ = true → P.zoom < 12 →
        0 ≤ P.zoom → P.zoom ≤ 2 →
        ∀ f ∈ (handle_invalidation ⟨2, 20, 0⟩
            ⟨[], ⟨[(⟨11, 1024, "1024@1.jpeg"⟩, [1])], [(⟨2, 2, 2⟩, ["12/2048/2048@1"])]⟩⟩
            ⟨12, 2048, 2048⟩ 5).fs.cacheFiles, ¬ matchesTileFiles P f.1) ∧
    (∀ P : TileCoord, P.zoom ≤ 2 →
        ∀ e ∈ (handle_invalidation ⟨2, 20, 0⟩
            ⟨[], ⟨[(⟨11, 1024, "1024@1.jpeg"⟩, [1])], [(⟨2, 2, 2⟩, ["12/2048/2048@1"])]⟩⟩
            ⟨12, 2048, 2048⟩ 5).fs.indexFiles, ∀ l ∈ e.2, ∀ sc,
          parseIndexEntry l ≠ some (P, sc)) :=
  c2_purge_amended ⟨2, 20, 0⟩
    ⟨[], ⟨[(⟨11, 1024, "1024@1.jpeg"⟩, [1])], [(⟨2, 2, 2⟩, ["12/2048/2048@1"])]⟩⟩
    ⟨12, 2048, 2048⟩ 5 (by decide) (by decide)
